import Mathlib

/-!
Verification of the source-tracker repository's two analysis engines against
their specification: the symbol extraction/deduplication/persistence pipeline
(`symbolParser.ts`, `symbolDatabase.ts`, `fileSystem.ts`, `main.ts`) and the
conditional-compilation block analyzer (`updateIfdefDecorations` in the
Editor component). Each claim's theorem is stated over a shallow embedding of
the corresponding source code.
-/

/-! ## Character classes

The JavaScript regex classes used by the source: `\w` is `[A-Za-z0-9_]`,
identifier-start is `[A-Za-z_]`, and `\s` (restricted to the characters
realistically present in a line) is modelled by `Char.isWhitespace`. -/

/-- JS `\w` character class `[A-Za-z0-9_]`. -/
def isWordChar (c : Char) : Bool := c.isAlpha || c.isDigit || c = '_'

/-- JS identifier-start class `[A-Za-z_]` from the capture groups. -/
def identStartChar (c : Char) : Bool := c.isAlpha || c = '_'

/-- Model of JS `String.prototype.trimStart`. -/
def jsTrimStart (s : String) : String := ⟨s.data.dropWhile Char.isWhitespace⟩

/-- Drop an exact literal from the front of a character list, or fail.
Used to model the fixed keywords of the directive regexes. -/
def dropLit : List Char → List Char → Option (List Char)
  | [], l => some l
  | _ :: _, [] => none
  | c :: cs, d :: ds => if c = d then dropLit cs ds else none

/-! ## Conditional block analyzer (`updateIfdefDecorations`, Editor.tsx)

First pass: a stack of open frames and a list of completed blocks; second
pass: a per-line boolean "inactive" array. -/

/-- Stack frame pushed by an opening directive (source: `stack` entries). -/
structure Frame where
  startLine : Nat
  isActive : Bool
deriving DecidableEq, Repr

/-- Completed conditional block (source: `Block` interface). -/
structure Block where
  startLine : Nat
  endLine : Nat
  isActive : Bool
  contentStart : Nat
  contentEnd : Nat
deriving DecidableEq, Repr

/-- JS `\b` after a keyword: the next character (if any) is not a word char. -/
def boundaryOk : List Char → Bool
  | [] => true
  | c :: _ => !isWordChar c

/-- Test for `/^#\s*KW\b/` on an (already trimmed) line. -/
def kwTest (kw : String) (s : String) : Bool :=
  match s.data with
  | [] => false
  | c :: r =>
    if c = '#' then
      match dropLit kw.data (r.dropWhile Char.isWhitespace) with
      | some rest => boundaryOk rest
      | none => false
    else false

/-- `/^#\s*endif\b/` (source line 225). -/
def endifTest (s : String) : Bool := kwTest "endif" s

/-- `/^#\s*else\b/` (source line 246). -/
def elseTest (s : String) : Bool := kwTest "else" s

/-- `/^#\s*if\b/ || /^#\s*ifdef\b/ || /^#\s*ifndef\b/` (source line 268). -/
def openTest (s : String) : Bool := kwTest "if" s || kwTest "ifdef" s || kwTest "ifndef" s

/-- Capture an identifier `[A-Za-z_][A-Za-z0-9_]*` at the head of `l`. -/
def takeIdent (l : List Char) : Option String :=
  match l with
  | c :: _ => if identStartChar c then some ⟨l.takeWhile isWordChar⟩ else none
  | [] => none

/-- Name capture of `/^#\s*KW\b\s+([A-Za-z_][A-Za-z0-9_]*)/` for `KW` one of
`ifdef`/`ifndef` (source lines 274, 279). The mandatory `\s+` after the
keyword subsumes the `\b` check. -/
def kwNameMatch (kw : String) (s : String) : Option String :=
  match s.data with
  | [] => none
  | c :: r =>
    if c = '#' then
      match dropLit kw.data (r.dropWhile Char.isWhitespace) with
      | some rest =>
        match rest with
        | d :: ds =>
          if d.isWhitespace then takeIdent (ds.dropWhile Char.isWhitespace) else none
        | [] => none
      | none => none
    else none

/-- Name capture of `/^#\s*if\b\s+defined\s*\(?\s*([A-Za-z_][A-Za-z0-9_]*)\s*\)?/`
and its `!defined` variant (source lines 284, 288). The trailing `\s*\)?` is
unconstraining and so not modelled. -/
def ifDefinedMatch (neg : Bool) (s : String) : Option String :=
  match s.data with
  | [] => none
  | c :: r =>
    if c = '#' then
      match dropLit ['i', 'f'] (r.dropWhile Char.isWhitespace) with
      | some rest =>
        match rest with
        | d :: ds =>
          if d.isWhitespace then
            let afterWs := ds.dropWhile Char.isWhitespace
            let lit : String := if neg then "!defined" else "defined"
            match dropLit lit.data afterWs with
            | some l2 =>
              let l3 := l2.dropWhile Char.isWhitespace
              let l4 := match l3 with
                | '(' :: t => t
                | _ => l3
              takeIdent (l4.dropWhile Char.isWhitespace)
            | none => none
          else none
        | [] => none
      | none => none
    else none

/-- `isDefined` (source line 193): membership of the name among the keys of
the defines mapping; the value (`string | null`) is irrelevant here. -/
def isDefinedIn (defines : List (String × Option String)) (name : String) : Bool :=
  defines.any (fun p => p.1 == name)

/-- Local truth value of an opening directive (source lines 271–297): `#ifdef
NAME` is true iff defined, `#ifndef NAME` the negation, `#if defined(NAME)` /
`#if !defined(NAME)` likewise, and any other form falls back to `true`. -/
def condOf (defines : List (String × Option String)) (trimmed : String) : Bool :=
  match kwNameMatch "ifdef" trimmed with
  | some n => isDefinedIn defines n
  | none =>
    match kwNameMatch "ifndef" trimmed with
    | some n => !isDefinedIn defines n
    | none =>
      match ifDefinedMatch false trimmed with
      | some n => isDefinedIn defines n
      | none =>
        match ifDefinedMatch true trimmed with
        | some n => !isDefinedIn defines n
        | none => true

/-- State of the analyzer's first pass: completed blocks plus the stack of
open frames (head of the list = top of the JS array stack). -/
structure PassState where
  blocks : List Block
  stack : List Frame
deriving DecidableEq, Repr

/-- One iteration of the first-pass loop body (source lines 214–309) at line
number `lineNumber` whose content is `lineContent`. -/
def processLine (defines : List (String × Option String)) (st : PassState)
    (lineNumber : Nat) (lineContent : String) : PassState :=
  let trimmed := jsTrimStart lineContent
  if endifTest trimmed then
    match st.stack with
    | fr :: rest =>
      { blocks := st.blocks ++
          [⟨fr.startLine, lineNumber, fr.isActive, fr.startLine + 1, lineNumber - 1⟩],
        stack := rest }
    | [] => st
  else if elseTest trimmed then
    match st.stack with
    | fr :: rest =>
      { blocks := st.blocks ++
          [⟨fr.startLine, lineNumber - 1, fr.isActive, fr.startLine + 1, lineNumber - 1⟩],
        stack := ⟨lineNumber, !fr.isActive⟩ :: rest }
    | [] => st
  else if openTest trimmed then
    let parentActive := st.stack.isEmpty || st.stack.all (fun f => f.isActive)
    let cond := condOf defines trimmed
    { blocks := st.blocks, stack := ⟨lineNumber, parentActive && cond⟩ :: st.stack }
  else st

/-- The first-pass loop over lines `lineNumber, lineNumber+1, …`. -/
def runLines (defines : List (String × Option String)) (st : PassState)
    (lineNumber : Nat) : List String → PassState
  | [] => st
  | s :: rest => runLines defines (processLine defines st lineNumber s) (lineNumber + 1) rest

/-- Split a character list at every occurrence of `c` (always nonempty). -/
def splitChar (c : Char) : List Char → List (List Char)
  | [] => [[]]
  | d :: ds =>
    if d = c then [] :: splitChar c ds
    else
      match splitChar c ds with
      | [] => [[d]]
      | p :: ps => (d :: p) :: ps

/-- The editor's line model of a text: lines are the pieces between `'\n'`
characters, numbered from 1. -/
def linesOf (text : String) : List String := (splitChar '\n' text.data).map (⟨·⟩)

/-- Completed blocks produced by the first pass over a file's lines; frames
still open at end-of-file remain in the discarded stack. -/
def blocksOfLines (defines : List (String × Option String)) (lines : List String) :
    List Block :=
  (runLines defines ⟨[], []⟩ 1 lines).blocks

/-- First pass applied to a whole text. -/
def analyzeBlocks (defines : List (String × Option String)) (text : String) : List Block :=
  blocksOfLines defines (linesOf text)

/-- Effect of one completed block on the per-line boolean array (source lines
316–326): an inactive block with a nonempty content range flags every line of
`[contentStart, contentEnd]`. -/
def markBlock (arr : Nat → Bool) (b : Block) : Nat → Bool :=
  if b.isActive = false ∧ b.contentStart ≤ b.contentEnd then
    fun ln => if b.contentStart ≤ ln ∧ ln ≤ b.contentEnd then true else arr ln
  else arr

/-- Second pass (source lines 315–326): the per-line "inactive" array, built
from all completed blocks over an initially all-false array. -/
def inactiveLinesOf (defines : List (String × Option String)) (lines : List String) :
    Nat → Bool :=
  (blocksOfLines defines lines).foldl markBlock (fun _ => false)

/-- Second pass applied to a whole text. -/
def inactiveLinesOfText (defines : List (String × Option String)) (text : String) :
    Nat → Bool :=
  inactiveLinesOf defines (linesOf text)

/-! ## Symbols and deduplication (`symbolParser.ts`) -/

/-- The `Symbol` record of `shared/types.ts` (named `SrcSymbol` here to avoid
a Mathlib name clash): `kind` is one of the string
literals `function`, `class`, `variable`, `method`, `struct`, `enum`,
`typedef`; `endLine`, `endColumn` and `signature` are optional. -/
structure SrcSymbol where
  name : String
  kind : String
  filePath : String
  line : Nat
  column : Nat
  endLine : Option Nat := none
  endColumn : Option Nat := none
  signature : Option String := none
deriving DecidableEq, Repr

/-- `allowedKinds` (source line 301). -/
def allowedKinds : List String := ["function", "class", "typedef", "struct"]

/-- `invalidNames` (source lines 302–307): the fixed blocklist of known false
positives. -/
def invalidNames : List String :=
  ["void", "int", "char", "float", "double", "long", "short", "unsigned",
   "signed", "bool", "size_t", "u8", "u16", "u32", "s8", "s16", "s32",
   "if", "volatile", "__volatile__",
   "BCMPOST_TRAP_RODATA", "BCMPOST_TRAP_TEXT", "BCMPOSTTRAPFN", "BCMRAMFN"]

/-- Dedup key for `typedef`/`class`/`struct` symbols (source line 318):
the template literal `` `${s.name}|${s.kind}|${s.filePath}` ``. -/
def typeKey (s : SrcSymbol) : String := s.name ++ "|" ++ s.kind ++ "|" ++ s.filePath

/-- Dedup key for the remaining (function) symbols (source line 326):
`` `${s.name}|${s.kind}|${s.filePath}|${s.line}|${s.column}` ``; the numbers
are rendered in decimal. -/
def fnKey (s : SrcSymbol) : String :=
  s.name ++ "|" ++ s.kind ++ "|" ++ s.filePath ++ "|" ++ Nat.repr s.line ++ "|" ++
    Nat.repr s.column

/-- The kinds handled by the first dedup branch (source line 317). -/
def isTypeKind (k : String) : Bool := k == "typedef" || k == "class" || k == "struct"

/-- A JS `Map<string, Symbol>` as an insertion-ordered association list. -/
abbrev SymMap := List (String × SrcSymbol)

/-- `map.get(k)`. -/
def mapGet (m : SymMap) (k : String) : Option SrcSymbol :=
  (m.find? (fun p => p.1 == k)).map (·.2)

/-- `map.set(k, v)`: replace in place if the key is present, else append. -/
def mapSet (m : SymMap) (k : String) (v : SrcSymbol) : SymMap :=
  if (m.find? (fun p => p.1 == k)).isSome then
    m.map (fun p => if p.1 == k then (k, v) else p)
  else m ++ [(k, v)]

/-- One iteration of the `for (const s of symbols)` loop of
`filterAndDeduplicateSymbols` (source lines 311–330). -/
def dedupStep (m : SymMap) (s : SrcSymbol) : SymMap :=
  if !(allowedKinds.contains s.kind) then m
  else if invalidNames.contains s.name then m
  else if isTypeKind s.kind then
    match mapGet m (typeKey s) with
    | none => mapSet m (typeKey s) s
    | some existing => if s.line < existing.line then mapSet m (typeKey s) s else m
  else
    if (mapGet m (fnKey s)).isSome then m else mapSet m (fnKey s) s

/-- `SymbolParser.filterAndDeduplicateSymbols` (source lines 300–333). -/
def filterAndDeduplicateSymbols (symbols : List SrcSymbol) : List SrcSymbol :=
  (symbols.foldl dedupStep []).map (·.2)

/-! ## Symbol store (`symbolDatabase.ts`) -/

/-- JS `x || null` on an optional number: `undefined`, `null` and `0` all
store as SQL `NULL` (modelled `none`). -/
def orNullNat : Option Nat → Option Nat
  | some 0 => none
  | v => v

/-- JS `x || null` on an optional string: `undefined`, `null` and `""` all
store as SQL `NULL`. -/
def orNullStr : Option String → Option String
  | some "" => none
  | v => v

/-- The symbol columns as stored by the `INSERT` of `saveSymbols` (source
lines 113–128): the mandatory columns verbatim, the optional ones through
`|| null`. -/
def storedSym (s : SrcSymbol) : SrcSymbol :=
  { s with endLine := orNullNat s.endLine, endColumn := orNullNat s.endColumn,
           signature := orNullStr s.signature }

/-- A persisted row of the `symbols` table: the symbol columns plus the
owning `projectPath`. The autoincrement `id` only fixes row order, which the
list order models. -/
structure StoreRecord where
  sym : SrcSymbol
  projectPath : String
deriving DecidableEq, Repr

/-- `SymbolDatabase.saveSymbols` on the in-memory table (source lines
104–133): delete all rows with this `projectPath`, then insert one row per
member of `symbols`, in order. -/
def saveSymbolsTable (table : List StoreRecord) (symbols : List SrcSymbol)
    (projectPath : String) : List StoreRecord :=
  table.filter (fun r => r.projectPath ≠ projectPath) ++
    symbols.map (fun s => ⟨storedSym s, projectPath⟩)

/-- `getDbPath` (source line 15): `path.join(projectPath, '.sourceviewer.db')`,
with `path.join` modelled as `/`-concatenation. -/
def getDbPath (projectPath : String) : String := projectPath ++ "/" ++ ".sourceviewer.db"

/-- The backing files: one symbols table per database file path; `none` means
the file does not exist. -/
abbrev FileStore := String → Option (List StoreRecord)

/-- `open(projectPath)` (source lines 19–58): load the existing database file
at the project's canonical path, or start from a fresh empty one. -/
def openDb (fs : FileStore) (projectPath : String) : List StoreRecord :=
  (fs (getDbPath projectPath)).getD []

/-- `open(p)` followed by `saveSymbols(X, p)`: the rebuilt table is flushed
to the project's database file (source lines 130–132); no other file is
touched. -/
def saveSymbolsRun (fs : FileStore) (X : List SrcSymbol) (p : String) : FileStore :=
  let table := saveSymbolsTable (openDb fs p) X p
  fun q => if q = getDbPath p then some table else fs q

/-- A JS `Map<string, Symbol[]>` keyed by name (source lines 93–96): push the
symbol onto its name's list, creating the list on first occurrence. -/
def groupAdd (m : List (String × List SrcSymbol)) (s : SrcSymbol) :
    List (String × List SrcSymbol) :=
  if m.any (fun p => p.1 == s.name) then
    m.map (fun p => if p.1 == s.name then (p.1, p.2 ++ [s]) else p)
  else m ++ [(s.name, [s])]

/-- `SymbolDatabase.load` (source lines 67–101): re-open the project's file,
select the rows with matching `projectPath`, and group them by name. -/
def loadDb (fs : FileStore) (p : String) : List (String × List SrcSymbol) :=
  (((openDb fs p).filter (fun r => r.projectPath = p)).map (·.sym)).foldl groupAdd []

/-- Flattened view of `load`'s result (the symbol lists of all names, in map
order). -/
def loadFlat (fs : FileStore) (p : String) : List SrcSymbol :=
  ((loadDb fs p).map (·.2)).flatten

/-- The file system with no database files — the "no prior build" state. -/
def emptyFS : FileStore := fun _ => none

/-! ## Full build (`buildSymbolDatabase`, `parseFile`) -/

/-- `SymbolParser.parseFile` (source lines 32–52): read the file — with no
try/catch, a read failure propagates to the caller — then run the
language-specific extraction on the content. The extraction itself is the
`extract` parameter, universally quantified in the theorems. -/
def parseFileE (readFile : String → Except String String)
    (extract : String → String → List SrcSymbol) (filePath language : String) :
    Except String (List SrcSymbol) :=
  match readFile filePath with
  | .error e => .error e
  | .ok content => .ok (extract language content)

/-- The parsing phase of `buildSymbolDatabase` (source lines 213–234): the
classified files are parsed one at a time and the symbols accumulated; an
exception from `parseFile` propagates and aborts the loop, since the loop
body has no try/catch. -/
def parsePhase (readFile : String → Except String String)
    (extract : String → String → List SrcSymbol) :
    List (String × String) → Except String (List SrcSymbol)
  | [] => .ok []
  | (f, lang) :: rest =>
    match parseFileE readFile extract f lang with
    | .error e => .error e
    | .ok syms =>
      match parsePhase readFile extract rest with
      | .error e => .error e
      | .ok more => .ok (syms ++ more)

/-- `buildSymbolDatabase` (source lines 198–265) from the parsing phase on:
on success the filtered symbol set is persisted to the project's database
file; an exception in the parsing loop aborts the build before anything is
saved. -/
def buildSymbolDatabaseE (readFile : String → Except String String)
    (extract : String → String → List SrcSymbol) (fs : FileStore)
    (files : List (String × String)) (projectPath : String) :
    Except String FileStore :=
  match parsePhase readFile extract files with
  | .error e => .error e
  | .ok allSymbols =>
    .ok (saveSymbolsRun fs (filterAndDeduplicateSymbols allSymbols) projectPath)

/-! ## Directory scan (`getAllSourceFiles`, source lines 171–195) -/

/-- A directory tree as yielded by `readdir` with file types. -/
inductive FsEntry where
  | file (name : String)
  | dir (name : String) (children : List FsEntry)
deriving Repr

/-- The skip rule of `getAllSourceFiles` (source lines 178–182): hidden
entries and the two cache directories. `build` and `dist` are *not* in this
set — only `buildFileTree` in `fileSystem.ts` skips those. -/
def skipName (n : String) : Bool :=
  n.data.head? == some '.' || n == "node_modules" || n == "__pycache__"

/-- `path.extname(name).toLowerCase()`: from the last `'.'` of the name to
its end (empty when there is no dot, or the only dot is the leading one),
lower-cased. -/
def extnameLower (n : String) : String :=
  let r := n.data.reverse
  let pre := r.takeWhile (fun c => c ≠ '.')
  if pre.length = r.length then ""
  else if pre.length + 1 = r.length then ""
  else ⟨('.' :: pre.reverse).map Char.toLower⟩

/-- The extension list of `getAllSourceFiles` (source line 188). -/
def sourceExtensions : List String := [".c", ".cpp", ".cc", ".cxx", ".h", ".hpp", ".py"]

mutual
/-- `getAllSourceFiles` loop body for one directory entry (source lines
175–192), with `path.join` modelled as `/`-concatenation. -/
def scanEntry (dirPath : String) : FsEntry → List String
  | .file n =>
    if skipName n then []
    else if sourceExtensions.contains (extnameLower n) then [dirPath ++ "/" ++ n]
    else []
  | .dir n children =>
    if skipName n then [] else scanEntries (dirPath ++ "/" ++ n) children

/-- `getAllSourceFiles` over a directory listing (source lines 171–195). -/
def scanEntries (dirPath : String) : List FsEntry → List String
  | [] => []
  | e :: es => scanEntry dirPath e ++ scanEntries dirPath es
end

/-- `SymbolParser.getAllSourceFiles` applied to the listing of `dirPath`. -/
def getAllSourceFiles (dirPath : String) (entries : List FsEntry) : List String :=
  scanEntries dirPath entries

/-! ## Defines file (`loadDefinesFromFile`, main.ts lines 12–48) -/

/-- Model of JS `String.prototype.trim`. -/
def jsTrim (s : String) : String :=
  ⟨((s.data.dropWhile Char.isWhitespace).reverse.dropWhile Char.isWhitespace).reverse⟩

/-- Characters the JS regex `.` does not match (line terminators). -/
def jsDotNoMatch (c : Char) : Bool :=
  c = '\n' || c = '\r' || c = Char.ofNat 0x2028 || c = Char.ofNat 0x2029

/-- The `-D` option matcher `/^-D([^\s=]+)(?:=(.+))?$/` (source line 37) on a
trimmed line: `NAME` is a maximal nonempty run of non-whitespace non-`=`
characters after `-D`; the optional `=<value>` must be nonempty and run to
the end of the line; any other shape fails to match. -/
def parseDefineLine (line : String) : Option (String × Option String) :=
  match line.data with
  | '-' :: 'D' :: rest =>
    let name := rest.takeWhile (fun c => !c.isWhitespace && c ≠ '=')
    if name.isEmpty then none
    else
      match rest.drop name.length with
      | [] => some (⟨name⟩, none)
      | '=' :: v =>
        if v.isEmpty then none
        else if v.any jsDotNoMatch then none
        else some (⟨name⟩, some ⟨v⟩)
      | _ :: _ => none
  | _ => none

/-- JS object key assignment `defines[name] = value`: replace in place if the
key exists, else append (insertion order preserved). -/
def recordSet (m : List (String × Option String)) (k : String) (v : Option String) :
    List (String × Option String) :=
  if m.any (fun p => p.1 == k) then m.map (fun p => if p.1 == k then (k, v) else p)
  else m ++ [(k, v)]

/-- One iteration of the `for (const rawLine of lines)` loop of
`loadDefinesFromFile` (source lines 24–43); the Boolean is `inCflagsSort`. -/
def definesStep (st : Bool × List (String × Option String)) (rawLine : String) :
    Bool × List (String × Option String) :=
  let line := jsTrim rawLine
  if line = "" then st
  else if line.data.head? == some '[' && line.data.getLast? == some ']' then
    (line == "[CFLAGS_sort]", st.2)
  else if !st.1 then st
  else
    match parseDefineLine line with
    | some (n, v) => (st.1, recordSet st.2 n v)
    | none => st

/-- Drop one trailing `'\r'` if present. -/
def dropCR (l : List Char) : List Char :=
  if l.getLast? = some '\r' then l.dropLast else l

/-- Remove the `'\r'` consumed by `/\r?\n/` before every separator (so from
every piece except the last). -/
def stripTrailingCR : List (List Char) → List (List Char)
  | [] => []
  | [p] => [p]
  | p :: ps => dropCR p :: stripTrailingCR ps

/-- `content.split(/\r?\n/)` (source line 21). -/
def splitDefineLines (content : String) : List String :=
  (stripTrailingCR (splitChar '\n' content.data)).map (⟨·⟩)

/-- `loadDefinesFromFile` (main.ts lines 12–48); `none` models a missing file
(`fs.existsSync` false), which yields the empty mapping. -/
def loadDefinesFromFile (contents : Option String) : List (String × Option String) :=
  match contents with
  | none => []
  | some content => ((splitDefineLines content).foldl definesStep (false, [])).2

/-! ## Lemmas about the directive matchers -/

/-- A successful `dropLit` exposes the literal as a prefix. -/
theorem dropLit_eq_some {ks l rest : List Char} (h : dropLit ks l = some rest) :
    l = ks ++ rest := by
  induction ks generalizing l with
  | nil =>
    simp only [dropLit, Option.some_inj] at h
    simp [h]
  | cons c cs ih =>
    cases l with
    | nil => simp [dropLit] at h
    | cons d ds =>
      by_cases hcd : c = d
      · subst hcd
        simp only [dropLit, if_pos rfl] at h
        simpa using ih h
      · simp [dropLit, hcd] at h

/-- Destructing a successful keyword test. -/
theorem kwTest_elim {kw s : String} (h : kwTest kw s = true) :
    ∃ r rest, s.data = '#' :: r ∧
      r.dropWhile Char.isWhitespace = kw.data ++ rest ∧ boundaryOk rest = true := by
  unfold kwTest at h
  split at h
  · exact absurd h (by simp)
  · rename_i c r hdata
    by_cases hc : c = '#'
    · subst hc
      rw [if_pos rfl] at h
      cases hm : dropLit kw.data (r.dropWhile Char.isWhitespace) with
      | none => rw [hm] at h; exact absurd h (by simp)
      | some rest =>
        rw [hm] at h
        exact ⟨r, rest, hdata, dropLit_eq_some hm, h⟩
    · rw [if_neg hc] at h
      exact absurd h (by simp)

/-- A line matching the `#else` test cannot match the `#endif` test. -/
theorem elseTest_endifTest_false {s : String} (h : elseTest s = true) :
    endifTest s = false := by
  cases hE : endifTest s with
  | false => rfl
  | true =>
    exfalso
    obtain ⟨r1, rest1, hd1, hw1, _⟩ := @kwTest_elim "else" s h
    obtain ⟨r2, rest2, hd2, hw2, _⟩ := @kwTest_elim "endif" s hE
    rw [hd1] at hd2
    injection hd2 with _ hr
    rw [← hr] at hw2
    have key := hw1.symm.trans hw2
    rw [show ("else" : String).data = ['e', 'l', 's', 'e'] from rfl,
        show ("endif" : String).data = ['e', 'n', 'd', 'i', 'f'] from rfl] at key
    simp only [List.cons_append, List.nil_append] at key
    injection key with _ key
    injection key with key _
    exact absurd key (by decide)

/-- A line matching the open-directive test starts, after `#` and whitespace,
with the letter `i`. -/
theorem openTest_heads {s : String} (h : openTest s = true) :
    ∃ r l, s.data = '#' :: r ∧ r.dropWhile Char.isWhitespace = 'i' :: l := by
  unfold openTest at h
  rw [Bool.or_eq_true, Bool.or_eq_true] at h
  rcases h with (h | h) | h
  · obtain ⟨r, rest, hd, hw, _⟩ := kwTest_elim h
    exact ⟨r, ("if".data ++ rest).tail, hd, by rw [hw]; rfl⟩
  · obtain ⟨r, rest, hd, hw, _⟩ := kwTest_elim h
    exact ⟨r, ("ifdef".data ++ rest).tail, hd, by rw [hw]; rfl⟩
  · obtain ⟨r, rest, hd, hw, _⟩ := kwTest_elim h
    exact ⟨r, ("ifndef".data ++ rest).tail, hd, by rw [hw]; rfl⟩

/-- A line matching the open-directive test cannot match the `#endif` test. -/
theorem openTest_endifTest_false {s : String} (h : openTest s = true) :
    endifTest s = false := by
  cases hE : endifTest s with
  | false => rfl
  | true =>
    exfalso
    obtain ⟨r1, l1, hd1, hw1⟩ := openTest_heads h
    obtain ⟨r2, rest2, hd2, hw2, _⟩ := @kwTest_elim "endif" s hE
    rw [hd1] at hd2
    injection hd2 with _ hr
    rw [← hr] at hw2
    have key := hw1.symm.trans hw2
    rw [show ("endif" : String).data = ['e', 'n', 'd', 'i', 'f'] from rfl] at key
    simp only [List.cons_append, List.nil_append] at key
    injection key with key _
    exact absurd key (by decide)

/-- A line matching the open-directive test cannot match the `#else` test. -/
theorem openTest_elseTest_false {s : String} (h : openTest s = true) :
    elseTest s = false := by
  cases hE : elseTest s with
  | false => rfl
  | true =>
    exfalso
    obtain ⟨r1, l1, hd1, hw1⟩ := openTest_heads h
    obtain ⟨r2, rest2, hd2, hw2, _⟩ := @kwTest_elim "else" s hE
    rw [hd1] at hd2
    injection hd2 with _ hr
    rw [← hr] at hw2
    have key := hw1.symm.trans hw2
    rw [show ("else" : String).data = ['e', 'l', 's', 'e'] from rfl] at key
    simp only [List.cons_append, List.nil_append] at key
    injection key with key _
    exact absurd key (by decide)

/-! ## Step equations for the first pass -/

/-- `#endif` with a nonempty stack: pop and close `[startLine, lineNumber]`
with content range `[startLine+1, lineNumber-1]`. -/
theorem processLine_endif_pop (defines : List (String × Option String))
    (bs : List Block) (fr : Frame) (rest : List Frame) (n : Nat) (s : String)
    (h : endifTest (jsTrimStart s) = true) :
    processLine defines ⟨bs, fr :: rest⟩ n s =
      ⟨bs ++ [⟨fr.startLine, n, fr.isActive, fr.startLine + 1, n - 1⟩], rest⟩ := by
  simp [processLine, h]

/-- `#endif` with an empty stack: silently ignored. -/
theorem processLine_endif_nil (defines : List (String × Option String))
    (bs : List Block) (n : Nat) (s : String)
    (h : endifTest (jsTrimStart s) = true) :
    processLine defines ⟨bs, []⟩ n s = ⟨bs, []⟩ := by
  simp [processLine, h]

/-- `#else` with a nonempty stack: close `[startLine, lineNumber-1]` with the
popped activity and push `{lineNumber, !popped.isActive}` over the untouched
remaining stack. -/
theorem processLine_else_pop (defines : List (String × Option String))
    (bs : List Block) (fr : Frame) (rest : List Frame) (n : Nat) (s : String)
    (h : elseTest (jsTrimStart s) = true) :
    processLine defines ⟨bs, fr :: rest⟩ n s =
      ⟨bs ++ [⟨fr.startLine, n - 1, fr.isActive, fr.startLine + 1, n - 1⟩],
       ⟨n, !fr.isActive⟩ :: rest⟩ := by
  simp [processLine, h, elseTest_endifTest_false h]

/-- `#else` with an empty stack: silently ignored. -/
theorem processLine_else_nil (defines : List (String × Option String))
    (bs : List Block) (n : Nat) (s : String)
    (h : elseTest (jsTrimStart s) = true) :
    processLine defines ⟨bs, []⟩ n s = ⟨bs, []⟩ := by
  simp [processLine, h, elseTest_endifTest_false h]

/-- Opening directive: push a frame whose activity is the parent activity
AND-ed with the local truth value. -/
theorem processLine_open (defines : List (String × Option String))
    (st : PassState) (n : Nat) (s : String)
    (h : openTest (jsTrimStart s) = true) :
    processLine defines st n s =
      ⟨st.blocks,
       ⟨n, (st.stack.isEmpty || st.stack.all (fun f => f.isActive)) &&
          condOf defines (jsTrimStart s)⟩ :: st.stack⟩ := by
  simp [processLine, h, openTest_endifTest_false h, openTest_elseTest_false h]

/-- A line matching none of the three tests leaves the state unchanged. -/
theorem processLine_other (defines : List (String × Option String))
    (st : PassState) (n : Nat) (s : String)
    (h1 : endifTest (jsTrimStart s) = false) (h2 : elseTest (jsTrimStart s) = false)
    (h3 : openTest (jsTrimStart s) = false) :
    processLine defines st n s = st := by
  simp [processLine, h1, h2, h3]

/-! ## Invariants of the completed-block list -/

/-- Shape invariant of completed blocks: content starts right after the
opening line, and the content end is `endLine - 1` (for `#endif`-closed
blocks) or `endLine` (for `#else`-closed blocks). -/
def BlocksInv (l : List Block) : Prop :=
  ∀ b ∈ l, b.contentStart = b.startLine + 1 ∧
    (b.contentEnd = b.endLine - 1 ∨ b.contentEnd = b.endLine)

theorem blocksInv_append_one {l : List Block} {b : Block} (h : BlocksInv l)
    (hb : b.contentStart = b.startLine + 1 ∧
      (b.contentEnd = b.endLine - 1 ∨ b.contentEnd = b.endLine)) :
    BlocksInv (l ++ [b]) := by
  intro x hx
  rcases List.mem_append.mp hx with hx | hx
  · exact h x hx
  · rcases List.mem_singleton.mp hx with rfl
    exact hb

theorem processLine_blocksInv (defines : List (String × Option String))
    (st : PassState) (n : Nat) (s : String) (h : BlocksInv st.blocks) :
    BlocksInv (processLine defines st n s).blocks := by
  obtain ⟨bs, stack⟩ := st
  by_cases h1 : endifTest (jsTrimStart s) = true
  · cases stack with
    | nil => rw [processLine_endif_nil defines bs n s h1]; exact h
    | cons fr rest =>
      rw [processLine_endif_pop defines bs fr rest n s h1]
      exact blocksInv_append_one h ⟨rfl, Or.inl rfl⟩
  · rw [Bool.not_eq_true] at h1
    by_cases h2 : elseTest (jsTrimStart s) = true
    · cases stack with
      | nil => rw [processLine_else_nil defines bs n s h2]; exact h
      | cons fr rest =>
        rw [processLine_else_pop defines bs fr rest n s h2]
        exact blocksInv_append_one h ⟨rfl, Or.inr rfl⟩
    · rw [Bool.not_eq_true] at h2
      by_cases h3 : openTest (jsTrimStart s) = true
      · rw [processLine_open defines ⟨bs, stack⟩ n s h3]
        exact h
      · rw [Bool.not_eq_true] at h3
        rw [processLine_other defines ⟨bs, stack⟩ n s h1 h2 h3]
        exact h

theorem runLines_blocksInv (defines : List (String × Option String)) :
    ∀ (lines : List String) (st : PassState) (n : Nat),
      BlocksInv st.blocks → BlocksInv (runLines defines st n lines).blocks := by
  intro lines
  induction lines with
  | nil => intro st n h; exact h
  | cons s rest ih =>
    intro st n h
    simp only [runLines]
    exact ih _ _ (processLine_blocksInv defines st n s h)

theorem blocksOfLines_inv (defines : List (String × Option String))
    (lines : List String) : BlocksInv (blocksOfLines defines lines) :=
  runLines_blocksInv defines lines ⟨[], []⟩ 1 (by intro b hb; cases hb)

/-- Where a `true` entry of the second-pass array can come from. -/
theorem foldl_markBlock_mem :
    ∀ (blocks : List Block) (base : Nat → Bool) (ln : Nat),
      (blocks.foldl markBlock base) ln = true →
      base ln = true ∨
        ∃ b ∈ blocks, b.isActive = false ∧ b.contentStart ≤ ln ∧ ln ≤ b.contentEnd := by
  intro blocks
  induction blocks with
  | nil => intro base ln h; exact Or.inl h
  | cons b bs ih =>
    intro base ln h
    rw [List.foldl_cons] at h
    rcases ih _ _ h with hbase | ⟨b', hb', hprop⟩
    · unfold markBlock at hbase
      split at hbase
      · rename_i hcond
        simp only at hbase
        split at hbase
        · rename_i hrange
          exact Or.inr ⟨b, List.mem_cons_self b bs, hcond.1, hrange.1, hrange.2⟩
        · exact Or.inl hbase
      · exact Or.inl hbase
    · exact Or.inr ⟨b', List.mem_cons_of_mem b hb', hprop⟩

/-- A block with an empty content range never changes the array. -/
theorem markBlock_empty_range (arr : Nat → Bool) (b : Block)
    (h : b.contentEnd < b.contentStart) : markBlock arr b = arr := by
  unfold markBlock
  rw [if_neg]
  rintro ⟨-, hle⟩
  omega

/-! ## The local truth value on well-formed directives -/

/-- A plain macro identifier: nonempty, starting with `[A-Za-z_]`, made of
word characters only. -/
def identOk (name : String) : Bool :=
  match name.data with
  | [] => false
  | c :: _ => identStartChar c && name.data.all isWordChar

theorem identStartChar_not_ws {c : Char} (h : identStartChar c = true) :
    c.isWhitespace = false := by
  cases hw : c.isWhitespace with
  | false => rfl
  | true =>
    exfalso
    simp only [Char.isWhitespace, Bool.or_eq_true, decide_eq_true_eq] at hw
    rcases hw with ((rfl | rfl) | rfl) | rfl <;> exact absurd h (by decide)

theorem takeWhile_all {p : Char → Bool} :
    ∀ {l : List Char}, (∀ c ∈ l, p c = true) → l.takeWhile p = l := by
  intro l
  induction l with
  | nil => intro _; rfl
  | cons c cs ih =>
    intro h
    rw [List.takeWhile_cons, if_pos (h c (List.mem_cons_self c cs))]
    rw [ih (fun x hx => h x (List.mem_cons_of_mem c hx))]

theorem takeIdent_of_ident {name : String} (h : identOk name = true) :
    takeIdent (name.data.dropWhile Char.isWhitespace) = some name := by
  unfold identOk at h
  cases hname : name.data with
  | nil => rw [hname] at h; exact absurd h (by simp)
  | cons c cs =>
    rw [hname] at h
    rw [Bool.and_eq_true] at h
    obtain ⟨hstart, hall⟩ := h
    rw [List.dropWhile_cons, identStartChar_not_ws hstart]
    simp only [Bool.false_eq_true, if_false]
    simp only [takeIdent]
    rw [if_pos hstart]
    rw [takeWhile_all (by simpa using hall)]
    rw [← hname]

/-- `condOf` on `#ifdef NAME` is key membership. -/
theorem condOf_ifdef (defines : List (String × Option String)) (name : String)
    (h : identOk name = true) :
    condOf defines ("#ifdef " ++ name) = isDefinedIn defines name := by
  have hmatch : kwNameMatch "ifdef" ("#ifdef " ++ name) =
      takeIdent (name.data.dropWhile Char.isWhitespace) := rfl
  rw [takeIdent_of_ident h] at hmatch
  simp [condOf, hmatch]

/-- `condOf` on `#ifndef NAME` is negated key membership. -/
theorem condOf_ifndef (defines : List (String × Option String)) (name : String)
    (h : identOk name = true) :
    condOf defines ("#ifndef " ++ name) = !isDefinedIn defines name := by
  have hnone : kwNameMatch "ifdef" ("#ifndef " ++ name) = none := rfl
  have hmatch : kwNameMatch "ifndef" ("#ifndef " ++ name) =
      takeIdent (name.data.dropWhile Char.isWhitespace) := rfl
  rw [takeIdent_of_ident h] at hmatch
  simp [condOf, hnone, hmatch]

/-! ## Claim theorems: conditional block analyzer -/

/-- C2 (amended): every completed block satisfies `contentStart = startLine+1`,
and `contentEnd = endLine - 1` or `contentEnd = endLine`; the `#endif` step
produces the first shape and the `#else` step the second (so the claimed
invariant `contentEnd = endLine - 1` holds only for `#endif`-closed blocks);
and a block with `contentStart > contentEnd` contributes no flagged lines. -/
theorem C2_block_invariant :
    (∀ (defines : List (String × Option String)) (lines : List String),
      ∀ b ∈ blocksOfLines defines lines,
        b.contentStart = b.startLine + 1 ∧
          (b.contentEnd = b.endLine - 1 ∨ b.contentEnd = b.endLine)) ∧
    (∀ (defines : List (String × Option String)) (bs : List Block) (fr : Frame)
        (rest : List Frame) (n : Nat) (s : String),
        endifTest (jsTrimStart s) = true →
        (processLine defines ⟨bs, fr :: rest⟩ n s).blocks =
          bs ++ [⟨fr.startLine, n, fr.isActive, fr.startLine + 1, n - 1⟩]) ∧
    (∀ (defines : List (String × Option String)) (bs : List Block) (fr : Frame)
        (rest : List Frame) (n : Nat) (s : String),
        elseTest (jsTrimStart s) = true →
        (processLine defines ⟨bs, fr :: rest⟩ n s).blocks =
          bs ++ [⟨fr.startLine, n - 1, fr.isActive, fr.startLine + 1, n - 1⟩]) ∧
    (∀ (arr : Nat → Bool) (b : Block),
        b.contentEnd < b.contentStart → markBlock arr b = arr) := by
  refine ⟨fun defines lines => blocksOfLines_inv defines lines, ?_, ?_, ?_⟩
  · intro defines bs fr rest n s h
    rw [processLine_endif_pop defines bs fr rest n s h]
  · intro defines bs fr rest n s h
    rw [processLine_else_pop defines bs fr rest n s h]
  · exact markBlock_empty_range

/-- C2 witness: the invariant instantiated on a concrete run, and the
empty-content-range part on a concrete block. -/
theorem C2_block_invariant_witness :
    ((⟨1, 3, true, 2, 2⟩ : Block) ∈ blocksOfLines [("FOO", none)]
        ["#ifdef FOO", "A", "#endif"]) ∧
    ((⟨1, 3, true, 2, 2⟩ : Block).contentStart = (⟨1, 3, true, 2, 2⟩ : Block).startLine + 1 ∧
      ((⟨1, 3, true, 2, 2⟩ : Block).contentEnd = (⟨1, 3, true, 2, 2⟩ : Block).endLine - 1 ∨
        (⟨1, 3, true, 2, 2⟩ : Block).contentEnd = (⟨1, 3, true, 2, 2⟩ : Block).endLine)) ∧
    ((⟨5, 5, false, 6, 4⟩ : Block).contentEnd < (⟨5, 5, false, 6, 4⟩ : Block).contentStart ∧
      markBlock (fun _ => false) ⟨5, 5, false, 6, 4⟩ = (fun _ => false)) :=
  ⟨by decide,
   C2_block_invariant.1 [("FOO", none)] ["#ifdef FOO", "A", "#endif"] _ (by decide),
   by decide,
   C2_block_invariant.2.2.2 (fun _ => false) ⟨5, 5, false, 6, 4⟩ (by decide)⟩

/-- C2 counterexample: in `#ifdef FOO / A / #else / B / #endif` the block
closed by the `#else` has `endLine = 2` and `contentEnd = 2`, so the claimed
invariant `contentEnd = endLine - 1` fails on it. -/
theorem C2_counterexample :
    ∃ b ∈ blocksOfLines [] ["#ifdef FOO", "A", "#else", "B", "#endif"],
      ¬ b.contentEnd = b.endLine - 1 := by decide

/-- C3: on an `#else` line with a nonempty stack the analyzer pops the top
frame, records a completed block `[startLine, currentLine-1]` carrying the
popped frame's `isActive`, and pushes `{startLine := currentLine, isActive :=
!popped.isActive}`; the pushed activity is the plain negation — the equation
holds for every remaining stack `rest`, which is left untouched and never
re-ANDed. -/
theorem C3_else_inversion :
    ∀ (defines : List (String × Option String)) (bs : List Block) (fr : Frame)
      (rest : List Frame) (n : Nat) (s : String),
      elseTest (jsTrimStart s) = true →
      processLine defines ⟨bs, fr :: rest⟩ n s =
        ⟨bs ++ [⟨fr.startLine, n - 1, fr.isActive, fr.startLine + 1, n - 1⟩],
         ⟨n, !fr.isActive⟩ :: rest⟩ :=
  fun defines bs fr rest n s h => processLine_else_pop defines bs fr rest n s h

/-- C3 witness: concrete `#else` step below an inactive ancestor frame — the
pushed activity is `!false = true` even though the ancestor is inactive. -/
theorem C3_else_inversion_witness :
    elseTest (jsTrimStart "#else") = true ∧
    processLine [] ⟨[], [⟨2, false⟩, ⟨1, false⟩]⟩ 3 "#else" =
      ⟨[⟨2, 2, false, 3, 2⟩], [⟨3, true⟩, ⟨1, false⟩]⟩ :=
  ⟨by decide, C3_else_inversion [] [] ⟨2, false⟩ [⟨1, false⟩] 3 "#else" (by decide)⟩

/-- C9: malformed input never faults and never over-flags — an `#endif` with
an empty stack leaves the state unchanged; a text consisting of a bare
`#endif` completes with no blocks and no flagged line; a frame left open at
end-of-file produces no block and no flagged line. -/
theorem C9_malformed_input :
    (∀ (defines : List (String × Option String)) (bs : List Block) (n : Nat)
        (s : String), endifTest (jsTrimStart s) = true →
        processLine defines ⟨bs, []⟩ n s = ⟨bs, []⟩) ∧
    (blocksOfLines [] ["#endif", "A"] = [] ∧
      ∀ ln : Nat, inactiveLinesOf [] ["#endif", "A"] ln = false) ∧
    (blocksOfLines [] ["#ifdef FOO", "A", "B"] = [] ∧
      ∀ ln : Nat, inactiveLinesOf [] ["#ifdef FOO", "A", "B"] ln = false) := by
  refine ⟨fun defines bs n s h => processLine_endif_nil defines bs n s h, ⟨by decide, ?_⟩,
    ⟨by decide, ?_⟩⟩ <;> {
    intro ln
    rw [inactiveLinesOf, show blocksOfLines _ _ = ([] : List Block) from by decide]
    rfl
  }

/-- C9 witness: the empty-stack `#endif` step at a concrete input. -/
theorem C9_malformed_input_witness :
    endifTest (jsTrimStart "  #endif") = true ∧
    processLine [] ⟨[], []⟩ 7 "  #endif" = ⟨[], []⟩ :=
  ⟨by decide, C9_malformed_input.1 [] [] 7 "  #endif" (by decide)⟩

/-- C4: on an opening directive the pushed frame's activity is the ancestor
activity (`every` over the still-open frames) AND-ed with the directive's
local truth value; the local truth value is key membership for `#ifdef NAME`
and `#if defined(NAME)`, its negation for `#ifndef NAME` and
`#if !defined(NAME)`, and `true` for any other `#if` form; in particular,
with `BAR` defined and `FOO` undefined, line 3 (`X`) of
`#ifdef FOO / #ifdef BAR / X / #endif / #endif` is flagged inactive. -/
theorem C4_open_activity :
    (∀ (defines : List (String × Option String)) (st : PassState) (n : Nat)
        (s : String), openTest (jsTrimStart s) = true →
        processLine defines st n s =
          ⟨st.blocks,
           ⟨n, (st.stack.isEmpty || st.stack.all (fun f => f.isActive)) &&
              condOf defines (jsTrimStart s)⟩ :: st.stack⟩) ∧
    (∀ (defines : List (String × Option String)) (name : String),
        identOk name = true →
        condOf defines ("#ifdef " ++ name) = isDefinedIn defines name) ∧
    (∀ (defines : List (String × Option String)) (name : String),
        identOk name = true →
        condOf defines ("#ifndef " ++ name) = !isDefinedIn defines name) ∧
    (condOf [("FOO", some "1")] "#if defined(FOO)" = true ∧
      condOf [] "#if defined(FOO)" = false ∧
      condOf [] "#if !defined(FOO)" = true ∧
      condOf [] "#if UNPARSEABLE + 1" = true) ∧
    inactiveLinesOf [("BAR", some "1")]
      ["#ifdef FOO", "#ifdef BAR", "X", "#endif", "#endif"] 3 = true := by
  refine ⟨fun defines st n s h => processLine_open defines st n s h,
    condOf_ifdef, condOf_ifndef, by decide, by decide⟩

/-- C4 witness: the push equation at a concrete input whose ancestor frame is
inactive while the local condition is true — the pushed frame is inactive. -/
theorem C4_open_activity_witness :
    openTest (jsTrimStart "#ifdef FOO") = true ∧
    identOk "FOO" = true ∧
    processLine [("FOO", none)] ⟨[], [⟨1, false⟩]⟩ 2 "#ifdef FOO" =
      ⟨[], [⟨2, false⟩, ⟨1, false⟩]⟩ ∧
    condOf [("FOO", none)] ("#ifdef " ++ "FOO") = isDefinedIn [("FOO", none)] "FOO" :=
  ⟨by decide, by decide,
   (C4_open_activity.1 [("FOO", none)] ⟨[], [⟨1, false⟩]⟩ 2 "#ifdef FOO"
      (by decide)).trans (by decide),
   C4_open_activity.2.1 [("FOO", none)] "FOO" (by decide)⟩

/-- C10 (amended): a line is flagged inactive only when it lies in the
content range of some completed inactive block, and every completed block's
content range starts strictly after the block's own opening line (so a
block never flags its own opening directive line); directive lines nested
inside an enclosing inactive block are nonetheless flagged, as the
counterexample shows. -/
theorem C10_flag_provenance :
    (∀ (defines : List (String × Option String)) (lines : List String) (ln : Nat),
      inactiveLinesOf defines lines ln = true →
      ∃ b ∈ blocksOfLines defines lines,
        b.isActive = false ∧ b.contentStart ≤ ln ∧ ln ≤ b.contentEnd) ∧
    (∀ (defines : List (String × Option String)) (lines : List String),
      ∀ b ∈ blocksOfLines defines lines, b.startLine < b.contentStart) := by
  constructor
  · intro defines lines ln h
    rcases foldl_markBlock_mem (blocksOfLines defines lines) (fun _ => false) ln h with
      hbase | hmem
    · exact absurd hbase (by simp)
    · exact hmem
  · intro defines lines b hb
    have := (blocksOfLines_inv defines lines) b hb
    omega

/-- C10 witness: provenance of the flag on line 3 of the nested example, and
the opening-line bound on a concrete completed block. -/
theorem C10_flag_provenance_witness :
    ((⟨1, 5, false, 2, 4⟩ : Block) ∈ blocksOfLines [("BAR", some "1")]
        ["#ifdef FOO", "#ifdef BAR", "X", "#endif", "#endif"]) ∧
    (⟨1, 5, false, 2, 4⟩ : Block).startLine < (⟨1, 5, false, 2, 4⟩ : Block).contentStart :=
  ⟨by decide,
   C10_flag_provenance.2 [("BAR", some "1")]
     ["#ifdef FOO", "#ifdef BAR", "X", "#endif", "#endif"] ⟨1, 5, false, 2, 4⟩ (by decide)⟩

/-- C10 counterexample: in the nested example, line 2 carries a recognized
opening directive (`#ifdef BAR`) and is nevertheless marked inactive (it lies
inside the enclosing inactive `#ifdef FOO` block), refuting the claim that no
directive-bearing line is ever marked inactive. -/
theorem C10_counterexample :
    (["#ifdef FOO", "#ifdef BAR", "X", "#endif", "#endif"].getD 1 "" = "#ifdef BAR") ∧
    openTest (jsTrimStart "#ifdef BAR") = true ∧
    inactiveLinesOf [("BAR", some "1")]
      ["#ifdef FOO", "#ifdef BAR", "X", "#endif", "#endif"] 2 = true := by decide

/-! ## Claim theorems: defines file parsing -/

/-- Applying one candidate `-D` line to the mapping. -/
def applyDefine (m : List (String × Option String)) (line : String) :
    List (String × Option String) :=
  match parseDefineLine line with
  | some (n, v) => recordSet m n v
  | none => m

/-- The trimmed, nonempty, non-header lines that lie inside a
`[CFLAGS_sort]` section, in order. -/
def sectionScan (inSec : Bool) : List String → List String
  | [] => []
  | raw :: rest =>
    let line := jsTrim raw
    if line = "" then sectionScan inSec rest
    else if line.data.head? == some '[' && line.data.getLast? == some ']' then
      sectionScan (line == "[CFLAGS_sort]") rest
    else if inSec then line :: sectionScan inSec rest
    else sectionScan inSec rest

/-- The loader's fold touches the mapping exactly on section-scanned lines. -/
theorem foldl_definesStep_eq :
    ∀ (lines : List String) (inSec : Bool) (m : List (String × Option String)),
      (lines.foldl definesStep (inSec, m)).2 = (sectionScan inSec lines).foldl applyDefine m := by
  intro lines
  induction lines with
  | nil => intro inSec m; rfl
  | cons raw rest ih =>
    intro inSec m
    rw [List.foldl_cons]
    by_cases h1 : jsTrim raw = ""
    · simp only [definesStep, sectionScan, h1, if_pos rfl, if_true]
      exact ih inSec m
    · by_cases h2 : ((jsTrim raw).data.head? == some '[' &&
          (jsTrim raw).data.getLast? == some ']') = true
      · simp only [definesStep, sectionScan]
        rw [if_neg h1, if_neg h1, if_pos h2, if_pos h2]
        exact ih _ m
      · cases inSec with
        | true =>
          simp only [definesStep, sectionScan]
          rw [if_neg h1, if_neg h1, if_neg h2, if_neg h2]
          simp only [Bool.not_true, Bool.false_eq_true, if_false, if_true]
          rw [List.foldl_cons]
          cases hp : parseDefineLine (jsTrim raw) with
          | none =>
            simp only [applyDefine, hp]
            exact ih true m
          | some nv =>
            obtain ⟨n, v⟩ := nv
            simp only [applyDefine, hp]
            exact ih true (recordSet m n v)
        | false =>
          simp only [definesStep, sectionScan]
          rw [if_neg h1, if_neg h1, if_neg h2, if_neg h2]
          simp only [Bool.not_false, eq_self_iff_true, if_true, Bool.false_eq_true, if_false]
          exact ih false m

theorem takeWhile_append_stop {p : Char → Bool} {x : Char} (hx : p x = false) :
    ∀ {l t : List Char}, (∀ c ∈ l, p c = true) → (l ++ x :: t).takeWhile p = l := by
  intro l
  induction l with
  | nil =>
    intro t _
    rw [List.nil_append, List.takeWhile_cons, hx]
    simp
  | cons c cs ih =>
    intro t h
    rw [List.cons_append, List.takeWhile_cons, h c (List.mem_cons_self c cs)]
    simp only [if_true]
    rw [ih (fun y hy => h y (List.mem_cons_of_mem c hy))]

/-- Reduction of the `-D` matcher once the `-D` prefix is visible. -/
theorem parseDefineLine_shape (rest : List Char) :
    parseDefineLine ⟨'-' :: 'D' :: rest⟩ = (
      let name := rest.takeWhile (fun c => !c.isWhitespace && c ≠ '=')
      if name.isEmpty then none
      else
        match rest.drop name.length with
        | [] => some (⟨name⟩, none)
        | '=' :: v =>
          if v.isEmpty then none
          else if v.any jsDotNoMatch then none
          else some (⟨name⟩, some ⟨v⟩)
        | _ :: _ => none) := rfl

/-- `-DNAME` (no `=`) maps `NAME` to `null`. -/
theorem parseDefineLine_noval (name : String) (hne : name.data ≠ [])
    (hc : ∀ c ∈ name.data, c.isWhitespace = false ∧ c ≠ '=') :
    parseDefineLine ("-D" ++ name) = some (name, none) := by
  have htw : name.data.takeWhile (fun c => !c.isWhitespace && c ≠ '=') = name.data :=
    takeWhile_all (fun c hcmem => by
      obtain ⟨hw, he⟩ := hc c hcmem
      simp [hw, he])
  rw [show ("-D" ++ name) = (⟨'-' :: 'D' :: name.data⟩ : String) from rfl,
    parseDefineLine_shape]
  simp only [htw]
  rw [if_neg (by simpa [List.isEmpty_iff] using hne)]
  rw [List.drop_length]

/-- `-DNAME=value` maps `NAME` to the literal trailing substring. -/
theorem parseDefineLine_withval (name v : String) (hne : name.data ≠ [])
    (hc : ∀ c ∈ name.data, c.isWhitespace = false ∧ c ≠ '=')
    (hv : v.data ≠ []) (hvc : ∀ c ∈ v.data, jsDotNoMatch c = false) :
    parseDefineLine ("-D" ++ name ++ "=" ++ v) = some (name, some v) := by
  have hd : ("-D" ++ name ++ "=" ++ v) =
      (⟨'-' :: 'D' :: (name.data ++ '=' :: v.data)⟩ : String) :=
    congrArg String.mk (by simp)
  have htw : (name.data ++ '=' :: v.data).takeWhile
      (fun c => !c.isWhitespace && c ≠ '=') = name.data :=
    takeWhile_append_stop (by simp) (fun c hcmem => by
      obtain ⟨hw, he⟩ := hc c hcmem
      simp [hw, he])
  have hany : v.data.any jsDotNoMatch = false := by
    rw [List.any_eq_false]
    intro c hcmem
    simp [hvc c hcmem]
  rw [hd, parseDefineLine_shape]
  simp only [htw]
  rw [if_neg (by simpa [List.isEmpty_iff] using hne)]
  rw [List.drop_left]
  show (if v.data.isEmpty then none
    else if v.data.any jsDotNoMatch then none
    else some ((⟨name.data⟩ : String), some (⟨v.data⟩ : String))) = some (name, some v)
  rw [if_neg (by simpa [List.isEmpty_iff] using hv), hany]
  simp

/-- C8: the defines loader scans only lines inside `[CFLAGS_sort]` sections
(the resulting mapping equals a fold of the `-D` matcher over exactly those
lines); within them, `-DNAME` yields `NAME → null` and `-DNAME=value` yields
`NAME →` the literal trailing substring; lines that fail the matcher (and
everything outside the section) leave the mapping untouched; a missing file
yields the empty mapping. -/
theorem C8_defines_loader :
    (loadDefinesFromFile none = []) ∧
    (∀ content : String,
      loadDefinesFromFile (some content) =
        (sectionScan false (splitDefineLines content)).foldl applyDefine []) ∧
    (∀ name : String, name.data ≠ [] →
      (∀ c ∈ name.data, c.isWhitespace = false ∧ c ≠ '=') →
      parseDefineLine ("-D" ++ name) = some (name, none)) ∧
    (∀ name v : String, name.data ≠ [] →
      (∀ c ∈ name.data, c.isWhitespace = false ∧ c ≠ '=') →
      v.data ≠ [] → (∀ c ∈ v.data, jsDotNoMatch c = false) →
      parseDefineLine ("-D" ++ name ++ "=" ++ v) = some (name, some v)) ∧
    (parseDefineLine "-DFOO=" = none ∧ parseDefineLine "-D" = none ∧
      parseDefineLine "-DFO O" = none ∧ parseDefineLine "CFLAGS" = none ∧
      loadDefinesFromFile
        (some "junk\n-DSKIP\n[CFLAGS_sort]\n-DFOO\n-DBAR=1\nnoise\n[other]\n-DHID=2") =
        [("FOO", none), ("BAR", some "1")]) := by
  refine ⟨rfl, ?_, parseDefineLine_noval, parseDefineLine_withval, by decide⟩
  intro content
  show ((splitDefineLines content).foldl definesStep (false, [])).2 = _
  exact foldl_definesStep_eq (splitDefineLines content) false []

/-- C8 witness: the loader on a missing file and the matcher lemmas at
concrete well-formed inputs. -/
theorem C8_defines_loader_witness :
    loadDefinesFromFile none = [] ∧
    parseDefineLine ("-D" ++ "FOO") = some ("FOO", none) ∧
    parseDefineLine ("-D" ++ "FOO" ++ "=" ++ "a=b c") = some ("FOO", some "a=b c") :=
  ⟨C8_defines_loader.1,
   C8_defines_loader.2.2.1 "FOO" (by decide) (by decide),
   C8_defines_loader.2.2.2.1 "FOO" "a=b c" (by decide) (by decide) (by decide) (by decide)⟩

/-! ## Claim theorems: directory scan -/

mutual
/-- Remove, at every depth, the entries the scanner skips and the files whose
extension is unsupported. -/
def pruneEntry : FsEntry → Option FsEntry
  | .file n =>
    if skipName n then none
    else if sourceExtensions.contains (extnameLower n) then some (.file n)
    else none
  | .dir n cs => if skipName n then none else some (.dir n (pruneEntries cs))

/-- `pruneEntry` mapped over a listing. -/
def pruneEntries : List FsEntry → List FsEntry
  | [] => []
  | e :: es =>
    match pruneEntry e with
    | some e' => e' :: pruneEntries es
    | none => pruneEntries es
end

mutual
theorem scanEntry_prune (d : String) (e : FsEntry) :
    (pruneEntry e).elim [] (scanEntry d) = scanEntry d e := by
  cases e with
  | file n =>
    by_cases h1 : skipName n = true
    · simp [pruneEntry, scanEntry, h1]
    · rw [Bool.not_eq_true] at h1
      by_cases h2 : extnameLower n ∈ sourceExtensions
      · simp [pruneEntry, scanEntry, h1, h2]
      · simp [pruneEntry, scanEntry, h1, h2]
  | dir n cs =>
    by_cases h1 : skipName n = true
    · simp [pruneEntry, scanEntry, h1]
    · rw [Bool.not_eq_true] at h1
      simp only [pruneEntry, scanEntry, h1, Bool.false_eq_true, if_false, Option.elim]
      exact scanEntries_prune (d ++ "/" ++ n) cs

theorem scanEntries_prune (d : String) (es : List FsEntry) :
    scanEntries d (pruneEntries es) = scanEntries d es := by
  cases es with
  | nil => rfl
  | cons e es =>
    have he := scanEntry_prune d e
    cases hp : pruneEntry e with
    | none =>
      rw [hp] at he
      simp only [Option.elim] at he
      simp only [pruneEntries, hp, scanEntries, ← he, List.nil_append]
      exact scanEntries_prune d es
    | some e' =>
      rw [hp] at he
      simp only [Option.elim] at he
      simp only [pruneEntries, hp, scanEntries, he]
      rw [scanEntries_prune d es]
end

mutual
theorem scanEntry_shape (d : String) (e : FsEntry) (p : String)
    (h : p ∈ scanEntry d e) :
    ∃ pre n, p = pre ++ "/" ++ n ∧ skipName n = false ∧
      sourceExtensions.contains (extnameLower n) = true := by
  cases e with
  | file n =>
    by_cases h1 : skipName n = true
    · simp [scanEntry, h1] at h
    · rw [Bool.not_eq_true] at h1
      by_cases h2 : extnameLower n ∈ sourceExtensions
      · simp [scanEntry, h1, h2] at h
        exact ⟨d, n, h, h1, by simpa using h2⟩
      · simp [scanEntry, h1, h2] at h
  | dir n cs =>
    by_cases h1 : skipName n = true
    · simp [scanEntry, h1] at h
    · rw [Bool.not_eq_true] at h1
      simp only [scanEntry, h1, Bool.false_eq_true, if_false] at h
      exact scanEntries_shape (d ++ "/" ++ n) cs p h

theorem scanEntries_shape (d : String) (es : List FsEntry) (p : String)
    (h : p ∈ scanEntries d es) :
    ∃ pre n, p = pre ++ "/" ++ n ∧ skipName n = false ∧
      sourceExtensions.contains (extnameLower n) = true := by
  cases es with
  | nil => simp [scanEntries] at h
  | cons e es =>
    simp only [scanEntries, List.mem_append] at h
    rcases h with h | h
    · exact scanEntry_shape d e p h
    · exact scanEntries_shape d es p h
end

/-- C7 (amended): at every depth the scan excludes entries whose name starts
with `.`, the `node_modules` directory and the `__pycache__` directory, and
omits files with unsupported extensions entirely (pruning all of those from
the tree leaves the result unchanged, and every returned path ends in a
non-skipped file name with a supported extension) — but, contrary to the
claim, build-output directories (`build`, `dist`) are *not* excluded by
`getAllSourceFiles`; only the file-tree builder skips them. -/
theorem C7_scan_exclusions :
    (∀ (d : String) (es : List FsEntry),
      getAllSourceFiles d (pruneEntries es) = getAllSourceFiles d es) ∧
    (∀ (d : String) (es : List FsEntry) (p : String), p ∈ getAllSourceFiles d es →
      ∃ pre n, p = pre ++ "/" ++ n ∧ skipName n = false ∧
        sourceExtensions.contains (extnameLower n) = true) ∧
    (∀ (d : String) (cs : List FsEntry), scanEntry d (FsEntry.dir "node_modules" cs) = []) ∧
    (∀ (d : String) (cs : List FsEntry), scanEntry d (FsEntry.dir "__pycache__" cs) = []) ∧
    (∀ (d n : String) (cs : List FsEntry), n.data.head? = some '.' →
      scanEntry d (FsEntry.dir n cs) = []) ∧
    (∀ (d n : String), skipName n = false →
      sourceExtensions.contains (extnameLower n) = false →
      scanEntry d (FsEntry.file n) = []) := by
  refine ⟨scanEntries_prune, scanEntries_shape, fun d cs => rfl, fun d cs => rfl, ?_, ?_⟩
  · intro d n cs h
    have hs : skipName n = true := by simp [skipName, h]
    simp [scanEntry, hs]
  · intro d n h1 h2
    have h2' : extnameLower n ∉ sourceExtensions := by
      intro hmem
      rw [show sourceExtensions.contains (extnameLower n) = true by simpa using hmem] at h2
      cases h2
    simp [scanEntry, h1, h2']

/-- C7 witness: a hidden directory and an unsupported file are dropped at a
concrete input. -/
theorem C7_scan_exclusions_witness :
    (".git".data.head? = some '.' ∧
      scanEntry "r" (FsEntry.dir ".git" [FsEntry.file "a.c"]) = []) ∧
    (skipName "x.txt" = false ∧ sourceExtensions.contains (extnameLower "x.txt") = false ∧
      scanEntry "r" (FsEntry.file "x.txt") = []) :=
  ⟨⟨by decide, C7_scan_exclusions.2.2.2.2.1 "r" ".git" [FsEntry.file "a.c"] (by decide)⟩,
   ⟨by decide, by decide,
    C7_scan_exclusions.2.2.2.2.2 "r" "x.txt" (by decide) (by decide)⟩⟩

/-- C7 counterexample: `getAllSourceFiles` does not exclude build-output
directories — a `build` directory's contents are returned. -/
theorem C7_counterexample :
    getAllSourceFiles "r" [FsEntry.dir "build" [FsEntry.file "a.c"],
        FsEntry.dir "dist" [FsEntry.file "b.c"]] = ["r/build/a.c", "r/dist/b.c"] := by
  decide

/-! ## Claim theorems: build-time read failures -/

/-- A file system whose `bad.c` is unreadable and whose other files read
fine. -/
def readFileDemo : String → Except String String :=
  fun f => if f = "bad.c" then .error "EACCES" else .ok "int f(void);"

/-- C6 (refuting the claim): `parseFile` has no try/catch, so a read failure
on any file propagates out of `buildSymbolDatabase` — the whole run aborts
with the read error and nothing is persisted. The first part shows the abort
for a failing first file, for every extractor, store and remaining file list;
the second evaluates a run whose first file is readable and whose second is
not: the run still ends in the error instead of skipping `bad.c`. -/
theorem C6_read_failure_aborts :
    (∀ (readFile : String → Except String String)
        (extract : String → String → List SrcSymbol) (fs : FileStore)
        (files : List (String × String)) (f lang msg P : String),
        readFile f = .error msg →
        buildSymbolDatabaseE readFile extract fs ((f, lang) :: files) P = .error msg) ∧
    (∀ (extract : String → String → List SrcSymbol) (fs : FileStore) (P : String),
        buildSymbolDatabaseE readFileDemo extract fs [("good.c", "c"), ("bad.c", "c")] P =
          .error "EACCES") := by
  constructor
  · intro readFile extract fs files f lang msg P h
    simp [buildSymbolDatabaseE, parsePhase, parseFileE, h]
  · intro extract fs P
    rfl

/-- C6 witness: the abort at a concrete failing input. -/
theorem C6_read_failure_aborts_witness :
    buildSymbolDatabaseE (fun _ => .error "ENOENT") (fun _ _ => []) emptyFS
      [("a.c", "c")] "p" = .error "ENOENT" :=
  C6_read_failure_aborts.1 (fun _ => .error "ENOENT") (fun _ _ => []) emptyFS
    [] "a.c" "c" "ENOENT" "p" rfl

/-! ## Claim theorems: store round-trip -/

theorem groupAdd_keys (m : List (String × List SrcSymbol)) (s : SrcSymbol)
    (h : m.any (fun p => p.1 == s.name) = true) :
    (groupAdd m s).map (·.1) = m.map (·.1) := by
  simp only [groupAdd, h, if_true]
  rw [List.map_map]
  apply List.map_congr_left
  intro p _
  by_cases hp : (p.1 == s.name) = true
  · simp [hp, (beq_iff_eq ..).mp hp]
  · simp [Function.comp, hp]

theorem groupAdd_keys_nodup {m : List (String × List SrcSymbol)} (s : SrcSymbol)
    (h : (m.map (·.1)).Nodup) : ((groupAdd m s).map (·.1)).Nodup := by
  cases ha : m.any (fun p => p.1 == s.name) with
  | true =>
    rw [groupAdd_keys m s ha]
    exact h
  | false =>
    have hnot : s.name ∉ m.map (·.1) := by
      intro hmem
      obtain ⟨p, hp, hkey⟩ := List.mem_map.mp hmem
      rw [List.any_eq_false] at ha
      have hfalse := ha p hp
      simp only [beq_iff_eq] at hfalse
      exact hfalse hkey
    simp only [groupAdd, ha, Bool.false_eq_true, if_false, List.map_append]
    simp [List.nodup_append, h, hnot]

theorem map_id_of_no_key {m : List (String × List SrcSymbol)} {k : String}
    (s : SrcSymbol) (h : k ∉ m.map (·.1)) :
    m.map (fun p => if p.1 == k then (p.1, p.2 ++ [s]) else p) = m := by
  apply List.map_congr_left ?_ |>.trans (List.map_id m)
  intro p hp
  have : ¬(p.1 == k) = true := by
    intro hbeq
    exact h (List.mem_map.mpr ⟨p, hp, (beq_iff_eq ..).mp hbeq⟩)
  simp [this]

theorem flatten_groupAdd_perm (s : SrcSymbol) :
    ∀ (m : List (String × List SrcSymbol)), (m.map (·.1)).Nodup →
      ((groupAdd m s).map (·.2)).flatten.Perm ((m.map (·.2)).flatten ++ [s]) := by
  intro m
  induction m with
  | nil =>
    intro _
    simp [groupAdd]
  | cons p ps ih =>
    intro hnd
    by_cases hp : (p.1 == s.name) = true
    · have hname : p.1 = s.name := (beq_iff_eq ..).mp hp
      have hnot : s.name ∉ ps.map (·.1) := by
        rw [← hname]
        exact (List.nodup_cons.mp (by simpa using hnd)).1
      have hany : (p :: ps).any (fun q => q.1 == s.name) = true := by
        rw [List.any_cons, hp, Bool.true_or]
      simp only [groupAdd, hany, if_true, List.map_cons, hp, List.flatten_cons]
      rw [map_id_of_no_key s hnot]
      simp only [List.flatten_cons, List.append_assoc]
      exact List.Perm.append_left p.2 List.perm_append_comm
    · cases hany : ps.any (fun q => q.1 == s.name) with
      | true =>
        have hall : (p :: ps).any (fun q => q.1 == s.name) = true := by
          rw [List.any_cons, hany, Bool.or_true]
        have hgrp : groupAdd ps s = ps.map
            (fun q => if q.1 == s.name then (q.1, q.2 ++ [s]) else q) := by
          simp [groupAdd, hany]
        simp only [groupAdd, hall, if_true, List.map_cons, hp, Bool.false_eq_true,
          if_false, List.flatten_cons]
        have ihp := ih (List.Nodup.of_cons (by simpa using hnd))
        rw [hgrp] at ihp
        rw [List.append_assoc]
        exact ihp.append_left p.2
      | false =>
        have hall : (p :: ps).any (fun q => q.1 == s.name) = false := by
          simp [List.any_cons, hany, hp]
        simp [groupAdd, hall]

theorem groupBy_keys_nodup :
    ∀ (l : List SrcSymbol) (m : List (String × List SrcSymbol)),
      (m.map (·.1)).Nodup → ((l.foldl groupAdd m).map (·.1)).Nodup := by
  intro l
  induction l with
  | nil => intro m h; exact h
  | cons s rest ih =>
    intro m h
    rw [List.foldl_cons]
    exact ih (groupAdd m s) (groupAdd_keys_nodup s h)

/-- Flattening the by-name map reproduces the record list up to order. -/
theorem flatten_groupBy_perm (l : List SrcSymbol) :
    ((l.foldl groupAdd []).map (·.2)).flatten.Perm l := by
  induction l using List.reverseRecOn with
  | nil => simp
  | append_singleton l s ih =>
    rw [List.foldl_append, List.foldl_cons, List.foldl_nil]
    have hnd : ((l.foldl groupAdd []).map (·.1)).Nodup :=
      groupBy_keys_nodup l [] (by simp)
    exact ((flatten_groupAdd_perm s _ hnd).trans (ih.append_right [s]))

theorem getDbPath_inj {p q : String} (h : getDbPath p = getDbPath q) : p = q := by
  have hd := congrArg String.data h
  simp only [getDbPath, String.data_append] at hd
  rw [List.append_assoc, List.append_assoc] at hd
  exact String.ext (List.append_cancel_right hd)

theorem loadFlat_save_self (fs : FileStore) (X : List SrcSymbol) (P : String) :
    (loadFlat (saveSymbolsRun fs X P) P).Perm (X.map storedSym) := by
  have htab : openDb (saveSymbolsRun fs X P) P = saveSymbolsTable (openDb fs P) X P := by
    simp [openDb, saveSymbolsRun]
  have hfil : (openDb (saveSymbolsRun fs X P) P).filter (fun r => r.projectPath = P) =
      X.map (fun s => ⟨storedSym s, P⟩) := by
    rw [htab]
    unfold saveSymbolsTable
    rw [List.filter_append]
    have h1 : ((openDb fs P).filter (fun r => r.projectPath ≠ P)).filter
        (fun r => r.projectPath = P) = [] := by
      apply List.filter_eq_nil_iff.mpr
      intro a ha
      have hne := List.of_mem_filter ha
      simp only [decide_not, Bool.not_eq_true', decide_eq_false_iff_not] at hne
      simp [hne]
    have h2 : (X.map (fun s => (⟨storedSym s, P⟩ : StoreRecord))).filter
        (fun r => r.projectPath = P) = X.map (fun s => ⟨storedSym s, P⟩) := by
      apply List.filter_eq_self.mpr
      intro a ha
      obtain ⟨s, -, rfl⟩ := List.mem_map.mp ha
      simp
    rw [h1, h2, List.nil_append]
  unfold loadFlat loadDb
  rw [hfil, List.map_map]
  exact flatten_groupBy_perm _

theorem loadFlat_save_other (fs : FileStore) (X : List SrcSymbol) (P Q : String)
    (hne : Q ≠ P) :
    loadFlat (saveSymbolsRun fs X P) Q = loadFlat fs Q := by
  have hopen : openDb (saveSymbolsRun fs X P) Q = openDb fs Q := by
    simp only [openDb, saveSymbolsRun]
    rw [if_neg (fun h => hne (getDbPath_inj h))]
  unfold loadFlat loadDb
  rw [hopen]

/-- A function symbol with no optional columns (round-trips unchanged). -/
def demoFn : SrcSymbol :=
  { name := "f", kind := "function", filePath := "a.c", line := 1, column := 2 }

/-- A function symbol whose `signature` is the empty string (hit by the
`|| null` coercion of `saveSymbols`). -/
def emptySigFn : SrcSymbol :=
  { name := "f", kind := "function", filePath := "a.c", line := 1, column := 1,
    signature := some "" }

/-- C5 (amended): `saveSymbols(X, P)` replaces all records for `P`, inserts
the members of `X` — with falsy optional columns (`endLine`/`endColumn` of
`0`, empty-string `signature`) stored as `NULL` by the `|| null` coercions —
and flushes only `P`'s backing file; a subsequent `load(P)` returns a
flattened set equal, up to order, to `X` with those columns so normalized
(hence to `X` itself whenever `X` has no falsy optional columns), and a load
of any other project path is unchanged by the save — empty when starting from
a store with no prior builds. -/
theorem C5_store_roundtrip :
    (∀ (fs : FileStore) (X : List SrcSymbol) (P : String),
      (loadFlat (saveSymbolsRun fs X P) P).Perm (X.map storedSym)) ∧
    (∀ (fs : FileStore) (X : List SrcSymbol) (P : String),
      (∀ s ∈ X, storedSym s = s) → (loadFlat (saveSymbolsRun fs X P) P).Perm X) ∧
    (∀ (fs : FileStore) (X : List SrcSymbol) (P Q : String), Q ≠ P →
      loadFlat (saveSymbolsRun fs X P) Q = loadFlat fs Q) ∧
    (∀ (X : List SrcSymbol) (P Q : String), Q ≠ P →
      loadFlat (saveSymbolsRun emptyFS X P) Q = []) := by
  refine ⟨loadFlat_save_self, ?_, loadFlat_save_other, ?_⟩
  · intro fs X P h
    have hperm := loadFlat_save_self fs X P
    have hmap : X.map storedSym = X := by
      rw [List.map_congr_left h]
      simp
    rwa [hmap] at hperm
  · intro X P Q h
    rw [loadFlat_save_other emptyFS X P Q h]
    rfl

/-- C5 witness: round-trip on a concrete store and isolation of a second
project path. -/
theorem C5_store_roundtrip_witness :
    ((∀ s ∈ [demoFn], storedSym s = s) ∧
      (loadFlat (saveSymbolsRun emptyFS [demoFn] "p") "p").Perm [demoFn]) ∧
    (("q" : String) ≠ "p" ∧
      loadFlat (saveSymbolsRun emptyFS [demoFn] "p") "q" = []) :=
  ⟨⟨by decide, C5_store_roundtrip.2.1 emptyFS [demoFn] "p" (by decide)⟩,
   ⟨by decide, C5_store_roundtrip.2.2.2 [demoFn] "p" "q" (by decide)⟩⟩

/-- C5 counterexample: a symbol whose `signature` is the empty string does
not round-trip — `signature || null` stores `NULL`, so `load(P)` returns the
symbol without its signature and the result is not a permutation of the
saved list. -/
theorem C5_counterexample :
    ¬ (loadFlat (saveSymbolsRun emptyFS [emptySigFn] "p") "p").Perm [emptySigFn] := by
  intro hperm
  have hmem : emptySigFn ∈ loadFlat (saveSymbolsRun emptyFS [emptySigFn] "p") "p" :=
    hperm.mem_iff.mpr (List.mem_singleton.mpr rfl)
  rw [show loadFlat (saveSymbolsRun emptyFS [emptySigFn] "p") "p" =
      [storedSym emptySigFn] from by decide] at hmem
  exact absurd (List.mem_singleton.mp hmem) (by decide)

/-! ## Decimal rendering facts (for the dedup keys' number segments) -/

/-- Decimal value of a digit character. -/
def digitVal (c : Char) : Nat := c.toNat - 48

/-- Decimal reading of a digit string. -/
def digitsVal (l : List Char) : Nat := l.foldl (fun a c => 10 * a + digitVal c) 0

theorem digitVal_digitChar {m : Nat} (h : m < 10) : digitVal (Nat.digitChar m) = m := by
  interval_cases m <;> rfl

theorem digitChar_ne_pipe {m : Nat} (h : m < 10) : Nat.digitChar m ≠ '|' := by
  interval_cases m <;> decide

theorem toDigitsCore_acc (f : Nat) :
    ∀ (n : Nat) (ds : List Char),
      Nat.toDigitsCore 10 f n ds = Nat.toDigitsCore 10 f n [] ++ ds := by
  induction f with
  | zero =>
    intro n ds
    simp [Nat.toDigitsCore]
  | succ f ih =>
    intro n ds
    simp only [Nat.toDigitsCore]
    by_cases h : n / 10 = 0
    · simp [h]
    · simp only [h, if_false]
      rw [ih (n / 10) ((n % 10).digitChar :: ds), ih (n / 10) [(n % 10).digitChar]]
      simp

theorem toDigitsCore_val (f : Nat) :
    ∀ n, n < f → digitsVal (Nat.toDigitsCore 10 f n []) = n := by
  induction f with
  | zero =>
    intro n h
    omega
  | succ f ih =>
    intro n h
    simp only [Nat.toDigitsCore]
    by_cases h0 : n / 10 = 0
    · simp only [h0, if_pos]
      have hm : n % 10 = n := by omega
      simp only [digitsVal, List.foldl_cons, List.foldl_nil, Nat.mul_zero, Nat.zero_add, hm]
      exact digitVal_digitChar (by omega)
    · simp only [h0, if_false]
      rw [toDigitsCore_acc]
      rw [show digitsVal (Nat.toDigitsCore 10 f (n / 10) [] ++ [(n % 10).digitChar]) =
          10 * digitsVal (Nat.toDigitsCore 10 f (n / 10) []) + digitVal ((n % 10).digitChar)
        from by simp [digitsVal, List.foldl_append]]
      rw [ih (n / 10) (by omega)]
      rw [digitVal_digitChar (by omega : n % 10 < 10)]
      omega

theorem repr_digitsVal (n : Nat) : digitsVal (Nat.repr n).data = n := by
  show digitsVal (Nat.toDigitsCore 10 (n + 1) n []) = n
  exact toDigitsCore_val (n + 1) n (Nat.lt_succ_self n)

theorem nat_repr_inj {m n : Nat} (h : Nat.repr m = Nat.repr n) : m = n := by
  have hv := repr_digitsVal m
  rw [h, repr_digitsVal] at hv
  exact hv.symm

theorem toDigitsCore_ne_pipe (f : Nat) :
    ∀ (n : Nat) (ds : List Char), (∀ c ∈ ds, c ≠ '|') →
      ∀ c ∈ Nat.toDigitsCore 10 f n ds, c ≠ '|' := by
  induction f with
  | zero =>
    intro n ds hds
    simpa [Nat.toDigitsCore] using hds
  | succ f ih =>
    intro n ds hds c hc
    simp only [Nat.toDigitsCore] at hc
    by_cases h0 : n / 10 = 0
    · rw [if_pos h0] at hc
      rcases List.mem_cons.mp hc with rfl | hmem
      · exact digitChar_ne_pipe (by omega : n % 10 < 10)
      · exact hds c hmem
    · rw [if_neg h0] at hc
      refine ih (n / 10) ((n % 10).digitChar :: ds) ?_ c hc
      intro x hx
      rcases List.mem_cons.mp hx with rfl | hmem
      · exact digitChar_ne_pipe (by omega : n % 10 < 10)
      · exact hds x hmem

theorem repr_ne_pipe (n : Nat) : ∀ c ∈ (Nat.repr n).data, c ≠ '|' :=
  toDigitsCore_ne_pipe (n + 1) n [] (by simp)

/-! ## Key-string splitting -/

/-- No `'|'` occurs in the string (the key separator). -/
def PipeFree (x : String) : Prop := ∀ c ∈ x.data, c ≠ '|'

instance (x : String) : Decidable (PipeFree x) := by
  unfold PipeFree
  infer_instance

theorem pipe_split {a b r₁ r₂ : List Char} (ha : ∀ c ∈ a, c ≠ '|')
    (hb : ∀ c ∈ b, c ≠ '|') (h : a ++ '|' :: r₁ = b ++ '|' :: r₂) :
    a = b ∧ r₁ = r₂ := by
  induction a generalizing b with
  | nil =>
    cases b with
    | nil =>
      rw [List.nil_append, List.nil_append] at h
      injection h with _ h2
      exact ⟨rfl, h2⟩
    | cons y ys =>
      rw [List.nil_append, List.cons_append] at h
      injection h with h1 _
      exact absurd h1.symm (hb y (List.mem_cons_self y ys))
  | cons x xs ih =>
    cases b with
    | nil =>
      rw [List.cons_append, List.nil_append] at h
      injection h with h1 _
      exact absurd h1 (ha x (List.mem_cons_self x xs))
    | cons y ys =>
      rw [List.cons_append, List.cons_append] at h
      injection h with h1 h2
      obtain ⟨hxs, hr⟩ := ih (fun c hc => ha c (List.mem_cons_of_mem x hc))
        (fun c hc => hb c (List.mem_cons_of_mem y hc)) h2
      exact ⟨by rw [h1, hxs], hr⟩

/-- Passes the kind filter and the name blocklist of
`filterAndDeduplicateSymbols`. -/
def eligible (s : SrcSymbol) : Bool :=
  allowedKinds.contains s.kind && !(invalidNames.contains s.name)

/-- The key under which `dedupStep` files the symbol. -/
def keyOf (s : SrcSymbol) : String :=
  if isTypeKind s.kind then typeKey s else fnKey s

/-- Same `(name, kind, filePath)` triple. -/
def sameTriple (t s : SrcSymbol) : Bool :=
  t.name == s.name && t.kind == s.kind && t.filePath == s.filePath

/-- Same `(name, kind, filePath, line, column)` tuple. -/
def sameFive (t s : SrcSymbol) : Bool :=
  sameTriple t s && t.line == s.line && t.column == s.column

/-- The eligible symbols of `pre` sharing `s`'s `(name, kind, filePath)`. -/
def groupT (pre : List SrcSymbol) (s : SrcSymbol) : List SrcSymbol :=
  pre.filter (fun u => eligible u && sameTriple u s)

/-- The eligible symbols of `pre` sharing `s`'s five-tuple. -/
def groupF (pre : List SrcSymbol) (s : SrcSymbol) : List SrcSymbol :=
  pre.filter (fun u => eligible u && sameFive u s)

/-- The survivor the type-kind branch keeps for a group: the first member
attaining the minimal line. -/
def minLineFold : List SrcSymbol → Option SrcSymbol
  | [] => none
  | s :: rest => some (rest.foldl (fun b u => if u.line < b.line then u else b) s)

theorem typeKey_data (s : SrcSymbol) :
    (typeKey s).data =
      s.name.data ++ '|' :: (s.kind.data ++ '|' :: s.filePath.data) := by
  simp [typeKey, String.data_append, show ("|" : String).data = ['|'] from rfl]

theorem fnKey_data (s : SrcSymbol) :
    (fnKey s).data =
      s.name.data ++ '|' :: (s.kind.data ++ '|' :: (s.filePath.data ++ '|' ::
        ((Nat.repr s.line).data ++ '|' :: (Nat.repr s.column).data))) := by
  simp [fnKey, String.data_append, show ("|" : String).data = ['|'] from rfl]

theorem sameTriple_typeKey {t s : SrcSymbol} (h : sameTriple t s = true) :
    typeKey t = typeKey s := by
  simp only [sameTriple, Bool.and_eq_true, beq_iff_eq] at h
  obtain ⟨⟨h1, h2⟩, h3⟩ := h
  simp [typeKey, h1, h2, h3]

theorem sameFive_fnKey {t s : SrcSymbol} (h : sameFive t s = true) :
    fnKey t = fnKey s := by
  simp only [sameFive, sameTriple, Bool.and_eq_true, beq_iff_eq] at h
  obtain ⟨⟨⟨⟨h1, h2⟩, h3⟩, h4⟩, h5⟩ := h
  simp [fnKey, h1, h2, h3, h4, h5]

theorem typeKey_inj {s t : SrcSymbol} (hsn : PipeFree s.name) (htn : PipeFree t.name)
    (hsk : PipeFree s.kind) (htk : PipeFree t.kind) (h : typeKey s = typeKey t) :
    s.name = t.name ∧ s.kind = t.kind ∧ s.filePath = t.filePath := by
  have hd := congrArg String.data h
  rw [typeKey_data, typeKey_data] at hd
  obtain ⟨h1, h2⟩ := pipe_split hsn htn hd
  obtain ⟨h3, h4⟩ := pipe_split hsk htk h2
  exact ⟨String.ext h1, String.ext h3, String.ext h4⟩

theorem fnKey_inj {s t : SrcSymbol} (hsn : PipeFree s.name) (htn : PipeFree t.name)
    (hsk : PipeFree s.kind) (htk : PipeFree t.kind)
    (hsf : PipeFree s.filePath) (htf : PipeFree t.filePath) (h : fnKey s = fnKey t) :
    s.name = t.name ∧ s.kind = t.kind ∧ s.filePath = t.filePath ∧
      s.line = t.line ∧ s.column = t.column := by
  have hd := congrArg String.data h
  rw [fnKey_data, fnKey_data] at hd
  obtain ⟨h1, h2⟩ := pipe_split hsn htn hd
  obtain ⟨h3, h4⟩ := pipe_split hsk htk h2
  obtain ⟨h5, h6⟩ := pipe_split hsf htf h4
  obtain ⟨h7, h8⟩ := pipe_split (repr_ne_pipe s.line) (repr_ne_pipe t.line) h6
  refine ⟨String.ext h1, String.ext h3, String.ext h5,
    nat_repr_inj (String.ext h7), nat_repr_inj (String.ext h8)⟩

theorem typeKey_ne_fnKey {s t : SrcSymbol} (hsn : PipeFree s.name)
    (htn : PipeFree t.name) (hsk : PipeFree s.kind) (htk : PipeFree t.kind)
    (hs : isTypeKind s.kind = true) (ht : isTypeKind t.kind = false) :
    typeKey s ≠ fnKey t := by
  intro h
  have hd := congrArg String.data h
  rw [typeKey_data, fnKey_data] at hd
  obtain ⟨-, h2⟩ := pipe_split hsn htn hd
  obtain ⟨h3, -⟩ := pipe_split hsk htk h2
  rw [show s.kind = t.kind from String.ext h3, ht] at hs
  cases hs

/-! ## JS `Map` model lemmas -/

theorem isSome_false_eq_none {α : Type} {o : Option α} (h : o.isSome = false) :
    o = none := by
  cases o with
  | none => rfl
  | some a => simp at h

theorem find?_map_keyfix (ps : SymMap) (k k' : String) (v : SrcSymbol) (hne : k' ≠ k) :
    (ps.map (fun q => if q.1 == k then (k, v) else q)).find? (fun q => q.1 == k') =
      ps.find? (fun q => q.1 == k') := by
  have hkk : ((k : String) == k') = false := by
    simpa using fun h => hne h.symm
  induction ps with
  | nil => rfl
  | cons p ps ih =>
    simp only [List.map_cons, List.find?_cons]
    by_cases hpk : (p.1 == k) = true
    · have hp : p.1 = k := (beq_iff_eq ..).mp hpk
      rw [if_pos hpk]
      have hp' : (p.1 == k') = false := by rw [hp]; exact hkk
      simp only [hkk, hp', cond_false]
      exact ih
    · rw [if_neg hpk]
      cases hp' : (p.1 == k') <;> simp only [cond_false, cond_true]
      exact ih

theorem find?_map_keyfix_self (ps : SymMap) (k : String) (v : SrcSymbol)
    (h : (ps.find? (fun q => q.1 == k)).isSome = true) :
    (ps.map (fun q => if q.1 == k then (k, v) else q)).find? (fun q => q.1 == k) =
      some (k, v) := by
  induction ps with
  | nil => simp at h
  | cons p ps ih =>
    simp only [List.map_cons, List.find?_cons]
    by_cases hpk : (p.1 == k) = true
    · rw [if_pos hpk]
      simp
    · rw [if_neg hpk]
      simp only [hpk, cond_false]
      apply ih
      simpa [List.find?_cons, hpk] using h

theorem find?_append_keyne (m : SymMap) (k k' : String) (v : SrcSymbol) (hne : k' ≠ k) :
    (m ++ [(k, v)]).find? (fun q => q.1 == k') = m.find? (fun q => q.1 == k') := by
  have hkk : ((k : String) == k') = false := by
    simpa using fun h => hne h.symm
  induction m with
  | nil => simp [List.find?_cons, hkk]
  | cons p ps ih =>
    simp only [List.cons_append, List.find?_cons]
    cases hp : (p.1 == k') <;> simp only [cond_false, cond_true]
    exact ih

theorem find?_append_self (m : SymMap) (k : String) (v : SrcSymbol)
    (h : m.find? (fun q => q.1 == k) = none) :
    (m ++ [(k, v)]).find? (fun q => q.1 == k) = some (k, v) := by
  induction m with
  | nil => simp [List.find?_cons]
  | cons p ps ih =>
    rw [List.find?_cons] at h
    cases hp : (p.1 == k) with
    | true => rw [hp] at h; simp at h
    | false =>
      rw [hp] at h
      have h' : ps.find? (fun q => q.1 == k) = none := h
      simp only [List.cons_append, List.find?_cons, hp, cond_false]
      exact ih h'

theorem mapGet_mapSet_self (m : SymMap) (k : String) (v : SrcSymbol) :
    mapGet (mapSet m k v) k = some v := by
  unfold mapSet
  cases hfind : (m.find? (fun p => p.1 == k)).isSome with
  | true =>
    rw [if_pos rfl]
    unfold mapGet
    rw [find?_map_keyfix_self m k v hfind]
    rfl
  | false =>
    rw [if_neg (by simp)]
    unfold mapGet
    rw [find?_append_self m k v (isSome_false_eq_none hfind)]
    rfl

theorem mapGet_mapSet_other (m : SymMap) {k k' : String} (v : SrcSymbol)
    (hne : k' ≠ k) : mapGet (mapSet m k v) k' = mapGet m k' := by
  unfold mapSet
  cases hfind : (m.find? (fun p => p.1 == k)).isSome with
  | true =>
    rw [if_pos rfl]
    unfold mapGet
    rw [find?_map_keyfix m k k' v hne]
  | false =>
    rw [if_neg (by simp)]
    unfold mapGet
    rw [find?_append_keyne m k k' v hne]

theorem mapSet_keys_present (m : SymMap) (k : String) (v : SrcSymbol)
    (h : (m.find? (fun p => p.1 == k)).isSome = true) :
    (mapSet m k v).map Prod.fst = m.map Prod.fst := by
  unfold mapSet
  rw [if_pos h, List.map_map]
  apply List.map_congr_left
  intro q _
  by_cases hq : (q.1 == k) = true
  · simp [hq, ((beq_iff_eq ..).mp hq).symm]
  · simp [Function.comp, hq]

theorem mapSet_keys_absent (m : SymMap) (k : String) (v : SrcSymbol)
    (h : (m.find? (fun p => p.1 == k)).isSome = false) :
    (mapSet m k v).map Prod.fst = m.map Prod.fst ++ [k] := by
  unfold mapSet
  rw [if_neg (by simp [h]), List.map_append]
  rfl

theorem mapGet_none_iff (m : SymMap) (k : String) :
    mapGet m k = none ↔ ∀ kv ∈ m, (kv.1 == k) = false := by
  unfold mapGet
  rw [Option.map_eq_none']
  rw [List.find?_eq_none]
  constructor
  · intro h kv hkv
    simpa using h kv hkv
  · intro h kv hkv
    simp [h kv hkv]

theorem mapSet_nodup (m : SymMap) (k : String) (v : SrcSymbol)
    (hnd : (m.map Prod.fst).Nodup) : ((mapSet m k v).map Prod.fst).Nodup := by
  cases hfind : (m.find? (fun p => p.1 == k)).isSome with
  | true => rw [mapSet_keys_present m k v hfind]; exact hnd
  | false =>
    rw [mapSet_keys_absent m k v hfind]
    have hnone : m.find? (fun p => p.1 == k) = none := isSome_false_eq_none hfind
    have hall := List.find?_eq_none.mp hnone
    have hk : k ∉ m.map Prod.fst := by
      intro hmem
      obtain ⟨q, hq, hqk⟩ := List.mem_map.mp hmem
      exact hall q hq (by simp [hqk])
    simp [List.nodup_append, hnd, hk]

theorem mem_mapSet {m : SymMap} {k : String} {v : SrcSymbol} {kv : String × SrcSymbol}
    (h : kv ∈ mapSet m k v) : kv = (k, v) ∨ (kv ∈ m ∧ (kv.1 == k) = false) := by
  unfold mapSet at h
  split at h
  · obtain ⟨q, hq, hqe⟩ := List.mem_map.mp h
    by_cases hqk : (q.1 == k) = true
    · rw [if_pos hqk] at hqe
      exact Or.inl hqe.symm
    · rw [if_neg hqk] at hqe
      rw [← hqe]
      exact Or.inr ⟨hq, by simpa using hqk⟩
  · rename_i hfind
    rcases List.mem_append.mp h with hm | hs
    · refine Or.inr ⟨hm, ?_⟩
      rw [Bool.not_eq_true] at hfind
      have hnone : m.find? (fun p => p.1 == k) = none := isSome_false_eq_none hfind
      exact (mapGet_none_iff m k).mp (by unfold mapGet; rw [hnone]; rfl) kv hm
    · exact Or.inl (List.mem_singleton.mp hs)

theorem mapGet_some_mem {m : SymMap} {k : String} {v : SrcSymbol}
    (h : mapGet m k = some v) : (k, v) ∈ m := by
  unfold mapGet at h
  obtain ⟨q, hq, hqv⟩ := Option.map_eq_some'.mp h
  have hqk := List.find?_some hq
  have hqm := List.mem_of_find?_eq_some hq
  have : q = (k, v) := by
    obtain ⟨q1, q2⟩ := q
    simp only at hqv
    rw [Prod.mk.injEq]
    exact ⟨(beq_iff_eq ..).mp hqk, hqv⟩
  rwa [this] at hqm

theorem mapGet_of_mem_nodup {m : SymMap} {k : String} {v : SrcSymbol}
    (hnd : (m.map Prod.fst).Nodup) (hmem : (k, v) ∈ m) : mapGet m k = some v := by
  induction m with
  | nil => cases hmem
  | cons p ps ih =>
    rcases List.mem_cons.mp hmem with rfl | hmem'
    · unfold mapGet
      rw [List.find?_cons]
      simp
    · by_cases hpk : (p.1 == k) = true
      · exfalso
        have hk : k ∈ ps.map Prod.fst :=
          List.mem_map.mpr ⟨(k, v), hmem', rfl⟩
        have hnd' : (p.1 :: ps.map Prod.fst).Nodup := by
          rw [List.map_cons] at hnd
          exact hnd
        have hhead := (List.nodup_cons.mp hnd').1
        rw [(beq_iff_eq ..).mp hpk] at hhead
        exact hhead hk
      · unfold mapGet
        rw [List.find?_cons]
        simp only [hpk, cond_false]
        have hnd' : (p.1 :: ps.map Prod.fst).Nodup := by
          rw [List.map_cons] at hnd
          exact hnd
        exact ih (List.nodup_cons.mp hnd').2 hmem'

theorem countP_key_eq_one {m : SymMap} {k : String} {v : SrcSymbol}
    (hnd : (m.map Prod.fst).Nodup) (h : mapGet m k = some v) :
    m.countP (fun kv => kv.1 == k) = 1 := by
  induction m with
  | nil => simp [mapGet] at h
  | cons p ps ih =>
    rw [List.countP_cons]
    by_cases hpk : (p.1 == k) = true
    · have hzero : ps.countP (fun kv => kv.1 == k) = 0 := by
        apply List.countP_eq_zero.mpr
        intro kv hkv
        intro hb
        have hk : k ∈ ps.map Prod.fst :=
          List.mem_map.mpr ⟨kv, hkv, (beq_iff_eq ..).mp hb⟩
        have hnd' : (p.1 :: ps.map Prod.fst).Nodup := by
          rw [List.map_cons] at hnd
          exact hnd
        have hhead := (List.nodup_cons.mp hnd').1
        rw [(beq_iff_eq ..).mp hpk] at hhead
        exact hhead hk
      simp [hzero, hpk]
    · have hget : mapGet ps k = some v := by
        unfold mapGet at h ⊢
        rw [List.find?_cons] at h
        simpa [hpk] using h
      have hnd' : (p.1 :: ps.map Prod.fst).Nodup := by
        rw [List.map_cons] at hnd
        exact hnd
      simp [hpk, ih (List.nodup_cons.mp hnd').2 hget]

/-! ## Properties of the per-group survivors -/

theorem foldlMin_le (rest : List SrcSymbol) :
    ∀ b : SrcSymbol,
      (rest.foldl (fun b u => if u.line < b.line then u else b) b).line ≤ b.line ∧
      ∀ u ∈ rest, (rest.foldl (fun b u => if u.line < b.line then u else b) b).line ≤ u.line := by
  induction rest with
  | nil =>
    intro b
    exact ⟨Nat.le_refl _, by intro u hu; cases hu⟩
  | cons u us ih =>
    intro b
    rw [List.foldl_cons]
    obtain ⟨h1, h2⟩ := ih (if u.line < b.line then u else b)
    have hb : (if u.line < b.line then u else b).line ≤ b.line := by
      split <;> omega
    have hu : (if u.line < b.line then u else b).line ≤ u.line := by
      split
      · omega
      · rename_i hcond
        omega
    refine ⟨Nat.le_trans h1 hb, ?_⟩
    intro x hx
    rcases List.mem_cons.mp hx with rfl | hx'
    · exact Nat.le_trans h1 hu
    · exact h2 x hx'

theorem foldlMin_init (rest : List SrcSymbol) :
    ∀ b : SrcSymbol,
      rest.foldl (fun b u => if u.line < b.line then u else b) b = b ∨
      (rest.foldl (fun b u => if u.line < b.line then u else b) b ∈ rest ∧
        (rest.foldl (fun b u => if u.line < b.line then u else b) b).line < b.line) := by
  induction rest with
  | nil =>
    intro b
    exact Or.inl rfl
  | cons u us ih =>
    intro b
    rw [List.foldl_cons]
    by_cases hlt : u.line < b.line
    · rw [if_pos hlt]
      rcases ih u with h | ⟨hmem, hlt'⟩
      · exact Or.inr ⟨by rw [h]; exact List.mem_cons_self u us, by rw [h]; exact hlt⟩
      · exact Or.inr ⟨List.mem_cons_of_mem u hmem, by omega⟩
    · rw [if_neg hlt]
      rcases ih b with h | ⟨hmem, hlt'⟩
      · exact Or.inl h
      · exact Or.inr ⟨List.mem_cons_of_mem u hmem, hlt'⟩

theorem foldlMin_find (rest : List SrcSymbol) :
    ∀ b : SrcSymbol,
      (b :: rest).find?
          (fun u => u.line == (rest.foldl (fun b u => if u.line < b.line then u else b) b).line) =
        some (rest.foldl (fun b u => if u.line < b.line then u else b) b) := by
  induction rest with
  | nil =>
    intro b
    simp [List.find?_cons]
  | cons u us ih =>
    intro b
    rw [List.foldl_cons]
    by_cases hlt : u.line < b.line
    · rw [if_pos hlt]
      have hle := (foldlMin_le us u).1
      have hb : (b.line == (us.foldl (fun b u => if u.line < b.line then u else b) u).line)
          = false := by
        simp only [beq_eq_false_iff_ne, ne_eq]
        omega
      simp only [List.find?_cons, hb, cond_false]
      exact ih u
    · rw [if_neg hlt]
      have ihb := ih b
      cases hb : (b.line == (us.foldl (fun b u => if u.line < b.line then u else b) b).line) with
      | true =>
        simp only [List.find?_cons, hb, cond_true] at ihb
        simp only [List.find?_cons, hb, cond_true]
        exact ihb
      | false =>
        simp only [List.find?_cons, hb, cond_false] at ihb
        have hu : (u.line == (us.foldl (fun b u => if u.line < b.line then u else b) b).line)
            = false := by
          rcases foldlMin_init us b with h | ⟨-, hlt'⟩
          · rw [h] at hb
            simp at hb
          · simp only [beq_eq_false_iff_ne, ne_eq]
            omega
        simp only [List.find?_cons, hb, cond_false, hu]
        exact ihb

theorem minLineFold_append (g : List SrcSymbol) (s : SrcSymbol) :
    minLineFold (g ++ [s]) = some (match minLineFold g with
      | none => s
      | some b => if s.line < b.line then s else b) := by
  cases g with
  | nil => rfl
  | cons b rest => simp [minLineFold, List.foldl_append]

theorem head?_append_one {α : Type} (g : List α) (s : α) :
    (g ++ [s]).head? = some (match g.head? with
      | none => s
      | some b => b) := by
  cases g <;> rfl

/-! ## Group and kind facts -/

theorem sameTriple_refl (s : SrcSymbol) : sameTriple s s = true := by
  simp [sameTriple]

theorem sameFive_refl (s : SrcSymbol) : sameFive s s = true := by
  simp [sameFive, sameTriple]

theorem sameTriple_congr {u s : SrcSymbol} (h : sameTriple u s = true) (x : SrcSymbol) :
    sameTriple x u = sameTriple x s := by
  simp only [sameTriple, Bool.and_eq_true, beq_iff_eq] at h
  obtain ⟨⟨h1, h2⟩, h3⟩ := h
  simp [sameTriple, h1, h2, h3]

theorem sameFive_congr {u s : SrcSymbol} (h : sameFive u s = true) (x : SrcSymbol) :
    sameFive x u = sameFive x s := by
  simp only [sameFive, sameTriple, Bool.and_eq_true, beq_iff_eq] at h
  obtain ⟨⟨⟨⟨h1, h2⟩, h3⟩, h4⟩, h5⟩ := h
  simp [sameFive, sameTriple, h1, h2, h3, h4, h5]

theorem sameTriple_symm {u s : SrcSymbol} (h : sameTriple u s = true) :
    sameTriple s u = true := by
  simp only [sameTriple, Bool.and_eq_true, beq_iff_eq] at h ⊢
  obtain ⟨⟨h1, h2⟩, h3⟩ := h
  exact ⟨⟨h1.symm, h2.symm⟩, h3.symm⟩

theorem sameFive_symm {u s : SrcSymbol} (h : sameFive u s = true) :
    sameFive s u = true := by
  simp only [sameFive, sameTriple, Bool.and_eq_true, beq_iff_eq] at h ⊢
  obtain ⟨⟨⟨⟨h1, h2⟩, h3⟩, h4⟩, h5⟩ := h
  exact ⟨⟨⟨⟨h1.symm, h2.symm⟩, h3.symm⟩, h4.symm⟩, h5.symm⟩

theorem sameFive_sameTriple {u s : SrcSymbol} (h : sameFive u s = true) :
    sameTriple u s = true := by
  simp only [sameFive, Bool.and_eq_true] at h
  exact h.1.1

theorem sameTriple_kind {u s : SrcSymbol} (h : sameTriple u s = true) :
    u.kind = s.kind := by
  simp only [sameTriple, Bool.and_eq_true, beq_iff_eq] at h
  exact h.1.2

theorem eligible_kind_cases {s : SrcSymbol} (h : eligible s = true) :
    s.kind = "function" ∨ s.kind = "class" ∨ s.kind = "typedef" ∨ s.kind = "struct" := by
  simp only [eligible, Bool.and_eq_true] at h
  have := h.1
  simpa [allowedKinds] using this

theorem eligible_kind_pipeFree {s : SrcSymbol} (h : eligible s = true) :
    PipeFree s.kind := by
  rcases eligible_kind_cases h with hk | hk | hk | hk <;> rw [hk] <;> decide

theorem eligible_fn_kind {s : SrcSymbol} (hel : eligible s = true)
    (ht : isTypeKind s.kind = false) : s.kind = "function" := by
  rcases eligible_kind_cases hel with hk | hk | hk | hk
  · exact hk
  all_goals rw [hk] at ht; cases ht

theorem groupT_append (pre : List SrcSymbol) (s x : SrcSymbol) :
    groupT (pre ++ [x]) s =
      groupT pre s ++ (if eligible x && sameTriple x s then [x] else []) := by
  simp only [groupT, List.filter_append]
  congr 1
  cases h : (eligible x && sameTriple x s) <;> simp [List.filter, h]

theorem groupF_append (pre : List SrcSymbol) (s x : SrcSymbol) :
    groupF (pre ++ [x]) s =
      groupF pre s ++ (if eligible x && sameFive x s then [x] else []) := by
  simp only [groupF, List.filter_append]
  congr 1
  cases h : (eligible x && sameFive x s) <;> simp [List.filter, h]

theorem groupT_eq_of_triple {u s : SrcSymbol} (h : sameTriple u s = true)
    (pre : List SrcSymbol) : groupT pre u = groupT pre s := by
  unfold groupT
  apply List.filter_congr
  intro x _
  rw [sameTriple_congr h x]

theorem groupF_eq_of_five {u s : SrcSymbol} (h : sameFive u s = true)
    (pre : List SrcSymbol) : groupF pre u = groupF pre s := by
  unfold groupF
  apply List.filter_congr
  intro x _
  rw [sameFive_congr h x]

theorem keyOf_type {s : SrcSymbol} (h : isTypeKind s.kind = true) :
    keyOf s = typeKey s := by
  simp [keyOf, h]

theorem keyOf_fn {s : SrcSymbol} (h : isTypeKind s.kind = false) :
    keyOf s = fnKey s := by
  simp [keyOf, h]

/-! ## The dedup loop invariant -/

/-- Invariant of the dedup map after processing the prefix `pre`:
keys are distinct; every entry holds an eligible symbol of `pre` filed under
its own key; the entry at a type key is the first minimal-line member of that
key's group; the entry at a function key is the first member of that key's
group. -/
structure DedupInv (m : SymMap) (pre : List SrcSymbol) : Prop where
  nodup : (m.map Prod.fst).Nodup
  entries : ∀ kv ∈ m, eligible kv.2 = true ∧ kv.2 ∈ pre ∧ kv.1 = keyOf kv.2
  typeGet : ∀ s : SrcSymbol, eligible s = true → isTypeKind s.kind = true →
    PipeFree s.name → PipeFree s.filePath →
    mapGet m (typeKey s) = minLineFold (groupT pre s)
  fnGet : ∀ s : SrcSymbol, eligible s = true → isTypeKind s.kind = false →
    PipeFree s.name → PipeFree s.filePath →
    mapGet m (fnKey s) = (groupF pre s).head?

theorem dedupStep_ineligible {m : SymMap} {x : SrcSymbol} (h : eligible x = false) :
    dedupStep m x = m := by
  unfold dedupStep
  cases ha : allowedKinds.contains x.kind with
  | false => simp [ha]
  | true =>
    rw [eligible, ha, Bool.true_and, Bool.not_eq_false'] at h
    have hm : x.name ∈ invalidNames := by simpa using h
    simp [ha, hm]

theorem eligible_parts {x : SrcSymbol} (h : eligible x = true) :
    allowedKinds.contains x.kind = true ∧ invalidNames.contains x.name = false := by
  rw [eligible, Bool.and_eq_true, Bool.not_eq_true'] at h
  exact h

theorem dedupStep_type_eq {m : SymMap} {x : SrcSymbol} (hel : eligible x = true)
    (ht : isTypeKind x.kind = true) :
    dedupStep m x = match mapGet m (typeKey x) with
      | none => mapSet m (typeKey x) x
      | some existing =>
        if x.line < existing.line then mapSet m (typeKey x) x else m := by
  obtain ⟨ha, hi⟩ := eligible_parts hel
  unfold dedupStep
  have hm : x.name ∉ invalidNames := by simpa using hi
  have hk : x.kind ∈ allowedKinds := by simpa using ha
  simp [hk, hm, ht]

theorem dedupStep_fn_eq {m : SymMap} {x : SrcSymbol} (hel : eligible x = true)
    (ht : isTypeKind x.kind = false) :
    dedupStep m x = if (mapGet m (fnKey x)).isSome then m
      else mapSet m (fnKey x) x := by
  obtain ⟨ha, hi⟩ := eligible_parts hel
  unfold dedupStep
  have hm : x.name ∉ invalidNames := by simpa using hi
  have hk : x.kind ∈ allowedKinds := by simpa using ha
  simp [hk, hm, ht]

theorem minLineFold_eq_none {g : List SrcSymbol} (h : minLineFold g = none) : g = [] := by
  cases g with
  | nil => rfl
  | cons a l => simp [minLineFold] at h

theorem mem_minLineFold {g : List SrcSymbol} {v : SrcSymbol} (h : minLineFold g = some v) :
    v ∈ g := by
  cases g with
  | nil => cases h
  | cons b rest =>
    simp only [minLineFold, Option.some_inj] at h
    rcases foldlMin_init rest b with he | ⟨hmem, -⟩
    · rw [he] at h
      rw [← h]
      exact List.mem_cons_self b rest
    · rw [← h]
      exact List.mem_cons_of_mem b hmem

theorem dedupStep_inv {m : SymMap} {pre : List SrcSymbol} {x : SrcSymbol}
    (hxn : PipeFree x.name) (hxf : PipeFree x.filePath)
    (hInv : DedupInv m pre) : DedupInv (dedupStep m x) (pre ++ [x]) := by
  cases hel : eligible x with
  | false =>
    rw [dedupStep_ineligible hel]
    refine ⟨hInv.nodup, ?_, ?_, ?_⟩
    · intro kv hkv
      obtain ⟨h1, h2, h3⟩ := hInv.entries kv hkv
      exact ⟨h1, List.mem_append_left _ h2, h3⟩
    · intro s hs ht hn hf
      rw [hInv.typeGet s hs ht hn hf, groupT_append]
      simp [hel]
    · intro s hs ht hn hf
      rw [hInv.fnGet s hs ht hn hf, groupF_append]
      simp [hel]
  | true =>
    have hxkpf : PipeFree x.kind := eligible_kind_pipeFree hel
    cases htk : isTypeKind x.kind with
    | true =>
      rw [dedupStep_type_eq hel htk]
      have hfnout : ∀ s : SrcSymbol, eligible s = true → isTypeKind s.kind = false →
          PipeFree s.name → PipeFree s.filePath → sameFive x s = false := by
        intro s _ ht _ _
        cases hsf : sameFive x s with
        | false => rfl
        | true =>
          exfalso
          have hk := sameTriple_kind (sameFive_sameTriple hsf)
          rw [hk, ht] at htk
          cases htk
      have hfnkey : ∀ s : SrcSymbol, eligible s = true → isTypeKind s.kind = false →
          PipeFree s.name → PipeFree s.filePath → fnKey s ≠ typeKey x := by
        intro s hs ht hn hf h
        exact typeKey_ne_fnKey hxn hn hxkpf (eligible_kind_pipeFree hs) htk ht h.symm
      cases hget : mapGet m (typeKey x) with
      | none =>
        show DedupInv (mapSet m (typeKey x) x) (pre ++ [x])
        have hgx : groupT pre x = [] := by
          apply minLineFold_eq_none
          have := hInv.typeGet x hel htk hxn hxf
          rw [hget] at this
          exact this.symm
        refine ⟨mapSet_nodup m _ x hInv.nodup, ?_, ?_, ?_⟩
        · intro kv hkv
          rcases mem_mapSet hkv with rfl | ⟨hkv', -⟩
          · exact ⟨hel, List.mem_append_right _ (List.mem_singleton.mpr rfl),
              (keyOf_type htk).symm⟩
          · obtain ⟨h1, h2, h3⟩ := hInv.entries kv hkv'
            exact ⟨h1, List.mem_append_left _ h2, h3⟩
        · intro s hs ht hn hf
          by_cases hks : typeKey s = typeKey x
          · obtain ⟨he1, he2, he3⟩ :=
              typeKey_inj hn hxn (eligible_kind_pipeFree hs) hxkpf hks
            have htr : sameTriple x s = true := by
              simp [sameTriple, he1, he2, he3]
            rw [hks, mapGet_mapSet_self, groupT_append,
              show (eligible x && sameTriple x s) = true from by simp [hel, htr],
              if_pos rfl, ← groupT_eq_of_triple htr pre, hgx]
            rfl
          · have hneq : sameTriple x s = false := by
              cases hst : sameTriple x s with
              | false => rfl
              | true => exact absurd (sameTriple_typeKey hst).symm hks
            rw [mapGet_mapSet_other m x hks, hInv.typeGet s hs ht hn hf, groupT_append]
            simp [hneq]
        · intro s hs ht hn hf
          rw [mapGet_mapSet_other m x (hfnkey s hs ht hn hf),
            hInv.fnGet s hs ht hn hf, groupF_append]
          simp [hfnout s hs ht hn hf]
      | some existing =>
        have hmain := hInv.typeGet x hel htk hxn hxf
        rw [hget] at hmain
        by_cases hlt : x.line < existing.line
        · show DedupInv (if x.line < existing.line then mapSet m (typeKey x) x else m)
              (pre ++ [x])
          rw [if_pos hlt]
          refine ⟨mapSet_nodup m _ x hInv.nodup, ?_, ?_, ?_⟩
          · intro kv hkv
            rcases mem_mapSet hkv with rfl | ⟨hkv', -⟩
            · exact ⟨hel, List.mem_append_right _ (List.mem_singleton.mpr rfl),
                (keyOf_type htk).symm⟩
            · obtain ⟨h1, h2, h3⟩ := hInv.entries kv hkv'
              exact ⟨h1, List.mem_append_left _ h2, h3⟩
          · intro s hs ht hn hf
            by_cases hks : typeKey s = typeKey x
            · obtain ⟨he1, he2, he3⟩ :=
                typeKey_inj hn hxn (eligible_kind_pipeFree hs) hxkpf hks
              have htr : sameTriple x s = true := by
                simp [sameTriple, he1, he2, he3]
              rw [hks, mapGet_mapSet_self, groupT_append,
                show (eligible x && sameTriple x s) = true from by simp [hel, htr],
                if_pos rfl, ← groupT_eq_of_triple htr pre, minLineFold_append,
                ← hmain]
              simp [hlt]
            · have hneq : sameTriple x s = false := by
                cases hst : sameTriple x s with
                | false => rfl
                | true => exact absurd (sameTriple_typeKey hst).symm hks
              rw [mapGet_mapSet_other m x hks, hInv.typeGet s hs ht hn hf, groupT_append]
              simp [hneq]
          · intro s hs ht hn hf
            rw [mapGet_mapSet_other m x (hfnkey s hs ht hn hf),
              hInv.fnGet s hs ht hn hf, groupF_append]
            simp [hfnout s hs ht hn hf]
        · show DedupInv (if x.line < existing.line then mapSet m (typeKey x) x else m)
              (pre ++ [x])
          rw [if_neg hlt]
          refine ⟨hInv.nodup, ?_, ?_, ?_⟩
          · intro kv hkv
            obtain ⟨h1, h2, h3⟩ := hInv.entries kv hkv
            exact ⟨h1, List.mem_append_left _ h2, h3⟩
          · intro s hs ht hn hf
            by_cases hks : typeKey s = typeKey x
            · obtain ⟨he1, he2, he3⟩ :=
                typeKey_inj hn hxn (eligible_kind_pipeFree hs) hxkpf hks
              have htr : sameTriple x s = true := by
                simp [sameTriple, he1, he2, he3]
              rw [hks, hget, groupT_append,
                show (eligible x && sameTriple x s) = true from by simp [hel, htr],
                if_pos rfl, ← groupT_eq_of_triple htr pre, minLineFold_append,
                ← hmain]
              simp [hlt]
            · have hneq : sameTriple x s = false := by
                cases hst : sameTriple x s with
                | false => rfl
                | true => exact absurd (sameTriple_typeKey hst).symm hks
              rw [hInv.typeGet s hs ht hn hf, groupT_append]
              simp [hneq]
          · intro s hs ht hn hf
            rw [hInv.fnGet s hs ht hn hf, groupF_append]
            simp [hfnout s hs ht hn hf]
    | false =>
      rw [dedupStep_fn_eq hel htk]
      have htyout : ∀ s : SrcSymbol, eligible s = true → isTypeKind s.kind = true →
          PipeFree s.name → PipeFree s.filePath → sameTriple x s = false := by
        intro s _ ht _ _
        cases hst : sameTriple x s with
        | false => rfl
        | true =>
          exfalso
          have hk := sameTriple_kind hst
          rw [hk, ht] at htk
          cases htk
      have htykey : ∀ s : SrcSymbol, eligible s = true → isTypeKind s.kind = true →
          PipeFree s.name → PipeFree s.filePath → typeKey s ≠ fnKey x := by
        intro s hs ht hn hf
        exact typeKey_ne_fnKey hn hxn (eligible_kind_pipeFree hs) hxkpf ht htk
      cases hget : mapGet m (fnKey x) with
      | none =>
        rw [if_neg (by simp [hget])]
        have hgx : groupF pre x = [] := by
          apply List.head?_eq_none_iff.mp
          have := hInv.fnGet x hel htk hxn hxf
          rw [hget] at this
          exact this.symm
        refine ⟨mapSet_nodup m _ x hInv.nodup, ?_, ?_, ?_⟩
        · intro kv hkv
          rcases mem_mapSet hkv with rfl | ⟨hkv', -⟩
          · exact ⟨hel, List.mem_append_right _ (List.mem_singleton.mpr rfl),
              (keyOf_fn htk).symm⟩
          · obtain ⟨h1, h2, h3⟩ := hInv.entries kv hkv'
            exact ⟨h1, List.mem_append_left _ h2, h3⟩
        · intro s hs ht hn hf
          rw [mapGet_mapSet_other m x (htykey s hs ht hn hf),
            hInv.typeGet s hs ht hn hf, groupT_append]
          simp [htyout s hs ht hn hf]
        · intro s hs ht hn hf
          by_cases hks : fnKey s = fnKey x
          · obtain ⟨he1, he2, he3, he4, he5⟩ :=
              fnKey_inj hn hxn (eligible_kind_pipeFree hs) hxkpf hf hxf hks
            have htr : sameFive x s = true := by
              simp [sameFive, sameTriple, he1, he2, he3, he4, he5]
            rw [hks, mapGet_mapSet_self, groupF_append,
              show (eligible x && sameFive x s) = true from by simp [hel, htr],
              if_pos rfl, ← groupF_eq_of_five htr pre, hgx]
            rfl
          · have hneq : sameFive x s = false := by
              cases hst : sameFive x s with
              | false => rfl
              | true => exact absurd (sameFive_fnKey hst).symm hks
            rw [mapGet_mapSet_other m x hks, hInv.fnGet s hs ht hn hf, groupF_append]
            simp [hneq]
      | some v =>
        rw [if_pos (by simp [hget])]
        refine ⟨hInv.nodup, ?_, ?_, ?_⟩
        · intro kv hkv
          obtain ⟨h1, h2, h3⟩ := hInv.entries kv hkv
          exact ⟨h1, List.mem_append_left _ h2, h3⟩
        · intro s hs ht hn hf
          rw [hInv.typeGet s hs ht hn hf, groupT_append]
          simp [htyout s hs ht hn hf]
        · intro s hs ht hn hf
          by_cases hks : fnKey s = fnKey x
          · obtain ⟨he1, he2, he3, he4, he5⟩ :=
              fnKey_inj hn hxn (eligible_kind_pipeFree hs) hxkpf hf hxf hks
            have htr : sameFive x s = true := by
              simp [sameFive, sameTriple, he1, he2, he3, he4, he5]
            have hmain := hInv.fnGet x hel htk hxn hxf
            rw [hget] at hmain
            rw [hks, hget, groupF_append,
              show (eligible x && sameFive x s) = true from by simp [hel, htr],
              if_pos rfl, ← groupF_eq_of_five htr pre, head?_append_one, ← hmain]
          · have hneq : sameFive x s = false := by
              cases hst : sameFive x s with
              | false => rfl
              | true => exact absurd (sameFive_fnKey hst).symm hks
            rw [hInv.fnGet s hs ht hn hf, groupF_append]
            simp [hneq]

theorem foldl_dedup_inv :
    ∀ (rest : List SrcSymbol) (m : SymMap) (pre : List SrcSymbol),
      (∀ u ∈ rest, PipeFree u.name ∧ PipeFree u.filePath) →
      DedupInv m pre → DedupInv (rest.foldl dedupStep m) (pre ++ rest) := by
  intro rest
  induction rest with
  | nil =>
    intro m pre _ h
    simpa using h
  | cons x rest ih =>
    intro m pre hpf h
    rw [List.foldl_cons, show pre ++ x :: rest = (pre ++ [x]) ++ rest from by simp]
    obtain ⟨hxn, hxf⟩ := hpf x (List.mem_cons_self x rest)
    exact ih (dedupStep m x) (pre ++ [x])
      (fun u hu => hpf u (List.mem_cons_of_mem x hu))
      (dedupStep_inv hxn hxf h)

theorem dedupInv_nil : DedupInv [] [] := by
  refine ⟨List.nodup_nil, ?_, ?_, ?_⟩
  · intro kv hkv
    cases hkv
  · intro s _ _ _ _
    rfl
  · intro s _ _ _ _
    rfl

theorem dedupInv_run (syms : List SrcSymbol)
    (hpf : ∀ u ∈ syms, PipeFree u.name ∧ PipeFree u.filePath) :
    DedupInv (syms.foldl dedupStep []) syms := by
  have := foldl_dedup_inv syms [] [] hpf dedupInv_nil
  simpa using this

theorem eligible_of_triple {u s : SrcSymbol} (h : sameTriple u s = true) :
    eligible u = eligible s := by
  simp only [sameTriple, Bool.and_eq_true, beq_iff_eq] at h
  obtain ⟨⟨h1, h2⟩, -⟩ := h
  simp [eligible, h1, h2]

theorem groupT_eq_filter {s : SrcSymbol} (hel : eligible s = true)
    (syms : List SrcSymbol) :
    groupT syms s = syms.filter (fun u => sameTriple u s) := by
  unfold groupT
  apply List.filter_congr
  intro u _
  cases ht : sameTriple u s with
  | false => simp [ht]
  | true => simp [ht, (eligible_of_triple ht).trans hel]

theorem eligible_of_five {u s : SrcSymbol} (h : sameFive u s = true) :
    eligible u = eligible s :=
  eligible_of_triple (sameFive_sameTriple h)

theorem groupF_eq_filter {s : SrcSymbol} (hel : eligible s = true)
    (syms : List SrcSymbol) :
    groupF syms s = syms.filter (fun u => sameFive u s) := by
  unfold groupF
  apply List.filter_congr
  intro u _
  cases ht : sameFive u s with
  | false => simp [ht]
  | true => simp [ht, (eligible_of_five ht).trans hel]

theorem countP_congr_list {α : Type} (p q : α → Bool) :
    ∀ l : List α, (∀ x ∈ l, p x = q x) → l.countP p = l.countP q := by
  intro l
  induction l with
  | nil => intro _; rfl
  | cons a l ih =>
    intro h
    rw [List.countP_cons, List.countP_cons, h a (List.mem_cons_self a l),
      ih (fun x hx => h x (List.mem_cons_of_mem a hx))]

theorem minLineFold_min {g : List SrcSymbol} {v : SrcSymbol}
    (h : minLineFold g = some v) : ∀ u ∈ g, v.line ≤ u.line := by
  cases g with
  | nil => cases h
  | cons b rest =>
    simp only [minLineFold, Option.some_inj] at h
    subst h
    intro u hu
    rcases List.mem_cons.mp hu with rfl | hu2
    · exact (foldlMin_le rest _).1
    · exact (foldlMin_le rest b).2 u hu2

theorem minLineFold_find {g : List SrcSymbol} {v : SrcSymbol}
    (h : minLineFold g = some v) :
    g.find? (fun u => u.line == v.line) = some v := by
  cases g with
  | nil => cases h
  | cons b rest =>
    simp only [minLineFold, Option.some_inj] at h
    subst h
    exact foldlMin_find rest b

/-- For an (eligible, type-kind) symbol of the input there is a unique
survivor in the output, and it is the minimum-line first-seen member of the
symbol's triple group. -/
theorem dedup_type_survivor {syms : List SrcSymbol} {s : SrcSymbol}
    (hpf : ∀ u ∈ syms, PipeFree u.name ∧ PipeFree u.filePath)
    (hs : s ∈ syms) (hel : eligible s = true) (htk : isTypeKind s.kind = true) :
    ∃ v, minLineFold (groupT syms s) = some v ∧
      (filterAndDeduplicateSymbols syms).countP (fun t => sameTriple t s) = 1 ∧
      ∀ t ∈ filterAndDeduplicateSymbols syms, sameTriple t s = true → t = v := by
  have inv := dedupInv_run syms hpf
  obtain ⟨hn, hf⟩ := hpf s hs
  have hget := inv.typeGet s hel htk hn hf
  have hsg : s ∈ groupT syms s :=
    List.mem_filter.mpr ⟨hs, by simp [hel, sameTriple_refl]⟩
  cases hml : minLineFold (groupT syms s) with
  | none =>
    rw [minLineFold_eq_none hml] at hsg
    cases hsg
  | some v =>
    rw [hml] at hget
    have hkey : ∀ kv ∈ syms.foldl dedupStep [],
        (sameTriple kv.2 s) = (kv.1 == typeKey s) := by
      intro kv hkv
      obtain ⟨helkv, hmemkv, hkeykv⟩ := inv.entries kv hkv
      obtain ⟨hkn, hkf⟩ := hpf kv.2 hmemkv
      cases htr : sameTriple kv.2 s with
      | true =>
        have hkind := sameTriple_kind htr
        have hko : keyOf kv.2 = typeKey s := by
          rw [keyOf_type (show isTypeKind kv.2.kind = true from by rw [hkind]; exact htk),
            sameTriple_typeKey htr]
        rw [hkeykv, hko]
        simp
      | false =>
        symm
        rw [beq_eq_false_iff_ne]
        intro hkeq
        rw [hkeykv] at hkeq
        cases htk2 : isTypeKind kv.2.kind with
        | true =>
          rw [keyOf_type htk2] at hkeq
          obtain ⟨h1, h2, h3⟩ := typeKey_inj hkn hn
            (eligible_kind_pipeFree helkv) (eligible_kind_pipeFree hel) hkeq
          have hcontra : sameTriple kv.2 s = true := by
            simp [sameTriple, h1, h2, h3]
          rw [htr] at hcontra
          cases hcontra
        | false =>
          rw [keyOf_fn htk2] at hkeq
          exact typeKey_ne_fnKey hn hkn (eligible_kind_pipeFree hel)
            (eligible_kind_pipeFree helkv) htk htk2 hkeq.symm
    refine ⟨v, rfl, ?_, ?_⟩
    · show ((syms.foldl dedupStep []).map (·.2)).countP (fun t => sameTriple t s) = 1
      rw [List.countP_map]
      have hcc := countP_congr_list
        ((fun t => sameTriple t s) ∘ fun x : String × SrcSymbol => x.2)
        (fun kv : String × SrcSymbol => kv.1 == typeKey s) (syms.foldl dedupStep [])
        (fun kv hkv => hkey kv hkv)
      rw [hcc]
      exact countP_key_eq_one inv.nodup hget
    · intro t ht htr
      have ht2 : t ∈ (syms.foldl dedupStep []).map (·.2) := ht
      obtain ⟨kv, hkv, hkveq⟩ := List.mem_map.mp ht2
      have hk := hkey kv hkv
      rw [hkveq, htr] at hk
      have hkeq : kv.1 = typeKey s := eq_of_beq hk.symm
      have hmem2 : (typeKey s, t) ∈ syms.foldl dedupStep [] := by
        rw [← hkeq, ← hkveq]
        exact hkv
      have hgt := mapGet_of_mem_nodup inv.nodup hmem2
      rw [hget] at hgt
      exact (Option.some_inj.mp hgt).symm

/-- For an (eligible, function-kind) symbol of the input there is a unique
survivor sharing its five-tuple, and it is the first-seen member of the
symbol's five-tuple group. -/
theorem dedup_fn_survivor {syms : List SrcSymbol} {s : SrcSymbol}
    (hpf : ∀ u ∈ syms, PipeFree u.name ∧ PipeFree u.filePath)
    (hs : s ∈ syms) (hel : eligible s = true) (htk : isTypeKind s.kind = false) :
    ∃ v, (groupF syms s).head? = some v ∧
      (filterAndDeduplicateSymbols syms).countP (fun t => sameFive t s) = 1 ∧
      ∀ t ∈ filterAndDeduplicateSymbols syms, sameFive t s = true → t = v := by
  have inv := dedupInv_run syms hpf
  obtain ⟨hn, hf⟩ := hpf s hs
  have hget := inv.fnGet s hel htk hn hf
  have hsg : s ∈ groupF syms s :=
    List.mem_filter.mpr ⟨hs, by simp [hel, sameFive_refl]⟩
  cases hgl : groupF syms s with
  | nil =>
    rw [hgl] at hsg
    cases hsg
  | cons b rest =>
    rw [hgl] at hget
    have hkey : ∀ kv ∈ syms.foldl dedupStep [],
        (sameFive kv.2 s) = (kv.1 == fnKey s) := by
      intro kv hkv
      obtain ⟨helkv, hmemkv, hkeykv⟩ := inv.entries kv hkv
      obtain ⟨hkn, hkf⟩ := hpf kv.2 hmemkv
      cases htr : sameFive kv.2 s with
      | true =>
        have hkind := sameTriple_kind (sameFive_sameTriple htr)
        have hko : keyOf kv.2 = fnKey s := by
          rw [keyOf_fn (show isTypeKind kv.2.kind = false from by rw [hkind]; exact htk),
            sameFive_fnKey htr]
        rw [hkeykv, hko]
        simp
      | false =>
        symm
        rw [beq_eq_false_iff_ne]
        intro hkeq
        rw [hkeykv] at hkeq
        cases htk2 : isTypeKind kv.2.kind with
        | true =>
          rw [keyOf_type htk2] at hkeq
          exact typeKey_ne_fnKey hkn hn (eligible_kind_pipeFree helkv)
            (eligible_kind_pipeFree hel) htk2 htk hkeq
        | false =>
          rw [keyOf_fn htk2] at hkeq
          obtain ⟨h1, h2, h3, h4, h5⟩ := fnKey_inj hkn hn
            (eligible_kind_pipeFree helkv) (eligible_kind_pipeFree hel) hkf hf hkeq
          have hcontra : sameFive kv.2 s = true := by
            simp [sameFive, sameTriple, h1, h2, h3, h4, h5]
          rw [htr] at hcontra
          cases hcontra
    refine ⟨b, rfl, ?_, ?_⟩
    · show ((syms.foldl dedupStep []).map (·.2)).countP (fun t => sameFive t s) = 1
      rw [List.countP_map]
      have hcc := countP_congr_list
        ((fun t => sameFive t s) ∘ fun x : String × SrcSymbol => x.2)
        (fun kv : String × SrcSymbol => kv.1 == fnKey s) (syms.foldl dedupStep [])
        (fun kv hkv => hkey kv hkv)
      rw [hcc]
      exact countP_key_eq_one inv.nodup hget
    · intro t ht htr
      have ht2 : t ∈ (syms.foldl dedupStep []).map (·.2) := ht
      obtain ⟨kv, hkv, hkveq⟩ := List.mem_map.mp ht2
      have hk := hkey kv hkv
      rw [hkveq, htr] at hk
      have hkeq : kv.1 = fnKey s := eq_of_beq hk.symm
      have hmem2 : (fnKey s, t) ∈ syms.foldl dedupStep [] := by
        rw [← hkeq, ← hkveq]
        exact hkv
      have hgt := mapGet_of_mem_nodup inv.nodup hmem2
      rw [hget] at hgt
      exact (Option.some_inj.mp hgt).symm

/-- C1 (corrected). Deduplication policy of `filterAndDeduplicateSymbols`,
for inputs whose names and file paths contain no `'|'` (the key separator).
The claim as stated omits the fixed false-positive blocklist: a symbol whose
name is blocklisted is dropped entirely, so "exactly one survives" needs the
extra hypothesis that the name is not blocklisted. With that hypothesis:
for every input symbol `s` of kind class/struct/typedef, exactly one output
symbol shares `s`'s `(name, kind, filePath)` triple, and it is the first
input of the triple group attaining the group's minimum line; for every
input function symbol `s`, exactly one output symbol shares `s`'s
`(name, kind, filePath, line, column)` five-tuple — so five-tuple duplicates
collapse to one while functions differing in line or column each keep their
own survivor — and it is the first-seen member of the five-tuple group. -/
theorem C1_dedup_policy (syms : List SrcSymbol)
    (hpf : ∀ u ∈ syms, PipeFree u.name ∧ PipeFree u.filePath) :
    (∀ s ∈ syms, (s.kind = "class" ∨ s.kind = "struct" ∨ s.kind = "typedef") →
      invalidNames.contains s.name = false →
      (filterAndDeduplicateSymbols syms).countP (fun t => sameTriple t s) = 1 ∧
      ∀ t ∈ filterAndDeduplicateSymbols syms, sameTriple t s = true →
        (∀ u ∈ syms.filter (fun u => sameTriple u s), t.line ≤ u.line) ∧
        (syms.filter (fun u => sameTriple u s)).find? (fun u => u.line == t.line) =
          some t) ∧
    (∀ s ∈ syms, s.kind = "function" →
      invalidNames.contains s.name = false →
      (filterAndDeduplicateSymbols syms).countP (fun t => sameFive t s) = 1 ∧
      ∀ t ∈ filterAndDeduplicateSymbols syms, sameFive t s = true →
        (syms.filter (fun u => sameFive u s)).head? = some t) := by
  constructor
  · intro s hs hk hn
    have hel : eligible s = true := by
      unfold eligible
      rcases hk with h | h | h <;> rw [h, hn] <;> decide
    have htk : isTypeKind s.kind = true := by
      rcases hk with h | h | h <;> rw [h] <;> decide
    obtain ⟨v, hml, hcnt, huniq⟩ := dedup_type_survivor hpf hs hel htk
    refine ⟨hcnt, ?_⟩
    intro t ht htr
    have htv := huniq t ht htr
    subst htv
    rw [← groupT_eq_filter hel syms]
    exact ⟨minLineFold_min hml, minLineFold_find hml⟩
  · intro s hs hk hn
    have hel : eligible s = true := by
      unfold eligible
      rw [hk, hn]
      decide
    have htk : isTypeKind s.kind = false := by
      rw [hk]
      decide
    obtain ⟨v, hhd, hcnt, huniq⟩ := dedup_fn_survivor hpf hs hel htk
    refine ⟨hcnt, ?_⟩
    intro t ht htr
    have htv := huniq t ht htr
    subst htv
    rw [← groupF_eq_filter hel syms]
    exact hhd

/-- A `class` symbol whose name sits on the false-positive blocklist. -/
def c1Blocked : SrcSymbol := ⟨"if", "class", "a.c", 1, 1, none, none, none⟩

/-- C1 counterexample: for the blocklisted class name `"if"` the claim's
"exactly one survives per `(name, kind, filePath)` group" fails — the
symbol is dropped and zero survive. -/
theorem C1_counterexample :
    c1Blocked.kind = "class" ∧
    (filterAndDeduplicateSymbols [c1Blocked]).countP
      (fun t => sameTriple t c1Blocked) = 0 := by
  decide

/-- Two `class Foo` records at lines 10 and 3 plus function `g` seen twice at
(5,2) and once at (9,2). -/
def c1Class10 : SrcSymbol := ⟨"Foo", "class", "a.c", 10, 1, none, none, none⟩

def c1Class3 : SrcSymbol := ⟨"Foo", "class", "a.c", 3, 1, none, none, none⟩

def c1Fn52 : SrcSymbol := ⟨"g", "function", "a.c", 5, 2, none, none, none⟩

def c1Fn92 : SrcSymbol := ⟨"g", "function", "a.c", 9, 2, none, none, none⟩

def c1Demo : List SrcSymbol := [c1Class10, c1Class3, c1Fn52, c1Fn52, c1Fn92]

/-- Witness for C1 at a concrete input: the pipe-freeness hypothesis holds
for `c1Demo`, and the theorem yields the exactly-one-survivor counts for the
`Foo` class group and the `(g, 5, 2)` function group. -/
theorem C1_dedup_policy_witness :
    (∀ u ∈ c1Demo, PipeFree u.name ∧ PipeFree u.filePath) ∧
    (filterAndDeduplicateSymbols c1Demo).countP (fun t => sameTriple t c1Class10) = 1 ∧
    (filterAndDeduplicateSymbols c1Demo).countP (fun t => sameFive t c1Fn52) = 1 :=
  ⟨by decide,
    ((C1_dedup_policy c1Demo (by decide)).1 c1Class10 (by decide)
      (by decide) (by decide)).1,
    ((C1_dedup_policy c1Demo (by decide)).2 c1Fn52 (by decide) (by decide)
      (by decide)).1⟩
